import Mathlib

/-!
# Verification of the `skctl` kubeconfig merge algorithm

Shallow embedding of `update_kubeconfig` from `src/skctl/skctl.py`
(lines 66-113).  YAML documents loaded by `yaml.safe_load` are modelled by
the inductive type `Value` (null / bool / int / string / list / mapping with
string keys).  Python subscripting, iteration, equality and in-place mutation
are modelled by explicit functions whose error cases mirror the exceptions
the interpreter would raise (`KeyError`, `TypeError`, `IndexError`,
`AttributeError`).  The function raises such exceptions instead of returning
named errors; an uncaught exception aborts the merge before the final write,
so "fails with error E" is modelled as the run returning `.error _` with no
write performed.
-/

set_option autoImplicit false

namespace Skctl

/-- A YAML document value as produced by `yaml.safe_load`:
null, booleans, integers, strings, sequences and string-keyed mappings. -/
inductive Value where
  | null : Value
  | bool : Bool → Value
  | int : Int → Value
  | str : String → Value
  | list : List Value → Value
  | dict : List (String × Value) → Value
  deriving Repr

/-- Python exceptions that the merge code can raise. -/
inductive PyErr where
  | keyError : PyErr
  | typeError : PyErr
  | indexError : PyErr
  | attributeError : PyErr
  deriving DecidableEq, Repr

mutual

/-- Structural equality on `Value`. -/
def beqV : Value → Value → Bool
  | .null, .null => true
  | .bool a, .bool b => a == b
  | .int a, .int b => a == b
  | .str a, .str b => a == b
  | .list a, .list b => beqL a b
  | .dict a, .dict b => beqD a b
  | _, _ => false

/-- Structural equality on lists of values. -/
def beqL : List Value → List Value → Bool
  | [], [] => true
  | a :: as, b :: bs => beqV a b && beqL as bs
  | _, _ => false

/-- Structural equality on key-value pair lists. -/
def beqD : List (String × Value) → List (String × Value) → Bool
  | [], [] => true
  | a :: as, b :: bs => (a.1 == b.1 && beqV a.2 b.2) && beqD as bs
  | _, _ => false

end

/-- First-match lookup in a string-keyed pair list
(Python mappings never hold duplicate keys, so this is Python dict lookup). -/
def lookups : List (String × Value) → String → Option Value
  | [], _ => none
  | p :: rest, k => if p.1 = k then some p.2 else lookups rest k

/-- Whether a key occurs in a pair list. -/
def hasKey : List (String × Value) → String → Bool
  | [], _ => false
  | p :: rest, k => p.1 = k || hasKey rest k

/-- Replace the value at every occurrence of a key, keeping positions. -/
def setExisting : List (String × Value) → String → Value → List (String × Value)
  | [], _, _ => []
  | p :: rest, k, v => if p.1 = k then (k, v) :: setExisting rest k v
                       else p :: setExisting rest k v

/-- Python `d[k] = v` on a dict: replace in place if the key exists
(preserving its position), otherwise append the new pair at the end. -/
def dictSet (d : List (String × Value)) (k : String) (v : Value) :
    List (String × Value) :=
  if hasKey d k then setExisting d k v else d ++ [(k, v)]

/-- Python `x[k]` for a string key `k`: dict lookup (`KeyError` when absent),
`TypeError` on any non-dict value. -/
def getStr : Value → String → Except PyErr Value
  | .dict d, k =>
    match lookups d k with
    | some v => .ok v
    | none => .error .keyError
  | _, _ => .error .typeError

/-- Python `x[i]` for an integer index `i ≥ 0`: list/str indexing
(`IndexError` out of range), `KeyError` on a string-keyed dict,
`TypeError` otherwise. -/
def getIdx : Value → Nat → Except PyErr Value
  | .list l, i =>
    match l.get? i with
    | some v => .ok v
    | none => .error .indexError
  | .str s, i =>
    match s.data.get? i with
    | some c => .ok (.str (String.mk [c]))
    | none => .error .indexError
  | .dict _, _ => .error .keyError
  | _, _ => .error .typeError

/-- Python `x[k] = v`: only dicts support string-key assignment here. -/
def setStrItem : Value → String → Value → Except PyErr Value
  | .dict d, k, v => .ok (.dict (dictSet d k v))
  | _, _, _ => .error .typeError

/-- Python `for e in x`: lists yield their elements, strings their
characters, dicts their keys; other values raise `TypeError`. -/
def iterElems : Value → Except PyErr (List Value)
  | .list l => .ok l
  | .str s => .ok (s.data.map (fun c => .str (String.mk [c])))
  | .dict d => .ok (d.map (fun p => .str p.1))
  | _ => .error .typeError

/-- Insert a pair into a key-sorted pair list. -/
def insertPair (p : String × Value) : List (String × Value) → List (String × Value)
  | [] => [p]
  | q :: qs => if p.1 ≤ q.1 then p :: q :: qs else q :: insertPair p qs

/-- Sort a pair list by key (insertion sort). -/
def sortPairs : List (String × Value) → List (String × Value)
  | [] => []
  | p :: ps => insertPair p (sortPairs ps)

mutual

/-- Canonical form used to decide Python `==`: booleans collapse to the
integers `0`/`1` (Python has `True == 1`) and mapping entries are sorted by
key (Python dict equality ignores insertion order). -/
def canon : Value → Value
  | .null => .null
  | .bool b => .int (if b then 1 else 0)
  | .int n => .int n
  | .str s => .str s
  | .list l => .list (canonL l)
  | .dict d => .dict (sortPairs (canonD d))

/-- Canonical forms of a list of values. -/
def canonL : List Value → List Value
  | [] => []
  | x :: xs => canon x :: canonL xs

/-- Canonical forms of the values of a pair list. -/
def canonD : List (String × Value) → List (String × Value)
  | [] => []
  | p :: ps => (p.1, canon p.2) :: canonD ps

end

/-- Python `==`, decided by comparing canonical forms. -/
def pyEq (a b : Value) : Bool := beqV (canon a) (canon b)

/-! ## The merge algorithm (`update_kubeconfig`, lines 66-113) -/

/-- `kubeconfig_data[listKey][0]`: the fragment's single entry for one of
the three categories (evaluated left to right, as Python does). -/
def fragGet (frag : Value) (listKey : String) : Except PyErr Value :=
  match getStr frag listKey with
  | .error e => .error e
  | .ok l => getIdx l 0

/-- One iteration sweep of the upsert loop
(lines 81-86, 92-97 and 101-106 of `skctl.py`, identical per category):
scan the entries for one whose `"name"` equals the fragment entry's
`"name"`, and, at the first hit, assign the fragment's payload sub-object to
the entry's payload key and stop.  `fe` is the (re-evaluated, pure) value of
`kubeconfig_data[listKey][0]`; within an iteration Python evaluates
`context["name"]` first, then the fragment's name, and the fragment's
payload only at a hit.  Returns `some` of the updated entry list at a hit,
`none` when the scan falls through. -/
def replaceFirst (fe : Except PyErr Value) (pk : String) :
    List Value → Except PyErr (Option (List Value))
  | [] => .ok none
  | e :: rest =>
    match getStr e "name" with
    | .error err => .error err
    | .ok n =>
      match fe with
      | .error err => .error err
      | .ok e0 =>
        match getStr e0 "name" with
        | .error err => .error err
        | .ok fn =>
          if pyEq n fn then
            match getStr e0 pk with
            | .error err => .error err
            | .ok pay =>
              match setStrItem e pk pay with
              | .error err => .error err
              | .ok e2 => .ok (some (e2 :: rest))
          else
            match replaceFirst fe pk rest with
            | .error err => .error err
            | .ok (some rest2) => .ok (some (e :: rest2))
            | .ok none => .ok none

/-- The update-or-add block for one category (loop plus append): on a scan
hit the mutated list replaces `config[lk]` in place; otherwise
`config[lk].append(...)` first requires a list (`AttributeError` when not)
and then evaluates the fragment entry and appends it. -/
def upsertCategory (config : Value) (lk pk : String) (frag : Value) :
    Except PyErr Value :=
  match getStr config lk with
  | .error e => .error e
  | .ok lst =>
    match iterElems lst with
    | .error e => .error e
    | .ok items =>
      match replaceFirst (fragGet frag lk) pk items with
      | .error e => .error e
      | .ok (some items2) => setStrItem config lk (.list items2)
      | .ok none =>
        match lst with
        | .list l =>
          match fragGet frag lk with
          | .error e => .error e
          | .ok e0 => setStrItem config lk (.list (l ++ [e0]))
        | _ => .error .attributeError

/-- The in-memory transformation of `update_kubeconfig` on the loaded
document (lines 80-110): upsert contexts, then clusters, then users, then
assign `config["current-context"]` from the fragment unconditionally. -/
def mergeConfig (config frag : Value) : Except PyErr Value :=
  match upsertCategory config "contexts" "context" frag with
  | .error e => .error e
  | .ok c1 =>
    match upsertCategory c1 "clusters" "cluster" frag with
    | .error e => .error e
    | .ok c2 =>
      match upsertCategory c2 "users" "user" frag with
      | .error e => .error e
      | .ok c3 =>
        match getStr frag "current-context" with
        | .error e => .error e
        | .ok cc => setStrItem c3 "current-context" cc

/-- The skeleton document written when the kubeconfig file does not exist
(lines 71-75). -/
def skeleton : Value :=
  .dict [("apiVersion", .str "v1"), ("clusters", .list []),
         ("contexts", .list []), ("current-context", .str ""),
         ("kind", .str "Config"), ("preferences", .dict []),
         ("users", .list [])]

/-- Full `update_kubeconfig` run on a file state (`none` = file absent):
when absent, the skeleton is written and re-loaded before the merge; the
merged document is written only when the merge raises no exception.
Returns the list of file writes performed, in order, together with the
outcome. -/
def update_kubeconfig (file : Option Value) (frag : Value) :
    List Value × Except PyErr Value :=
  match file with
  | some d =>
    match mergeConfig d frag with
    | .ok r => ([r], .ok r)
    | .error e => ([], .error e)
  | none =>
    match mergeConfig skeleton frag with
    | .ok r => ([skeleton, r], .ok r)
    | .error e => ([skeleton], .error e)

/-! ## Observation helpers -/

/-- The three (list key, payload key) category pairs, in the order the code
processes them. -/
def cats : List (String × String) :=
  [("contexts", "context"), ("clusters", "cluster"), ("users", "user")]

/-- The entry list of a document under a list key (empty when the key is
absent or its value is not a list). -/
def entriesOf (v : Value) (lk : String) : List Value :=
  match getStr v lk with
  | .ok (.list l) => l
  | _ => []

/-- The fragment's single entry for a category (defaulting to `null`). -/
def fragEnt (f : Value) (lk : String) : Value :=
  match fragGet f lk with
  | .ok e => e
  | _ => .null

/-- An entry's `"name"` field (defaulting to `null`). -/
def nameOf (e : Value) : Value :=
  match getStr e "name" with
  | .ok n => n
  | _ => .null

/-- An entry's payload field under key `pk` (defaulting to `null`). -/
def payloadOf (e : Value) (pk : String) : Value :=
  match getStr e pk with
  | .ok p => p
  | _ => .null

/-- Payload assignment on an entry (total version of `e[pk] = v`,
identity on non-dicts). -/
def withPayload (e : Value) (pk : String) (v : Value) : Value :=
  match e with
  | .dict d => .dict (dictSet d pk v)
  | x => x

/-- Number of entries of a list whose name is Python-equal to `n`. -/
def countNamed (l : List Value) (n : Value) : Nat :=
  (l.filter (fun e => pyEq (nameOf e) n)).length

/-- First entry of a list whose name is Python-equal to `n`
(defaulting to `null`). -/
def findNamed (l : List Value) (n : Value) : Value :=
  match l.find? (fun e => pyEq (nameOf e) n) with
  | some e => e
  | none => .null

/-- Index of the first entry whose name is Python-equal to `fn`. -/
def findNameIdx (fn : Value) : List Value → Option Nat
  | [] => none
  | e :: rest =>
    if pyEq (nameOf e) fn then some 0 else (findNameIdx fn rest).map (· + 1)

/-! ## Well-formedness (the spec's §3 data model, decidable) -/

/-- The entry has a `"name"` field (so in particular it is a mapping). -/
def hasNameB (e : Value) : Bool :=
  match getStr e "name" with
  | .ok _ => true
  | _ => false

/-- Pairwise distinct entry names (Python equality). -/
def distinctNames : List Value → Bool
  | [] => true
  | e :: rest =>
    rest.all (fun e2 => !(pyEq (nameOf e) (nameOf e2))) && distinctNames rest

/-- No key occurs twice in a mapping (always true of Python dicts). -/
def nodupKeys : List (String × Value) → Bool
  | [] => true
  | p :: rest => rest.all (fun q => !(q.1 == p.1)) && nodupKeys rest

/-- §3 well-formed document: each of the three category keys holds a list
whose entries all carry a name, names unique within each list. -/
def wfDoc (d : Value) : Bool :=
  cats.all (fun p =>
    match getStr d p.1 with
    | .ok (.list l) => l.all hasNameB && distinctNames l
    | _ => false)

/-- §3 well-formed fragment: for each category, `frag[lk][0]` exists and is
a duplicate-free mapping carrying `"name"` and the payload key, and
`frag["current-context"]` exists. -/
def wfFrag (f : Value) : Bool :=
  cats.all (fun p =>
    match fragGet f p.1 with
    | .ok (.dict e) =>
      nodupKeys e && hasNameB (.dict e) &&
        (match lookups e p.2 with
         | some _ => true
         | none => false)
    | _ => false)
  && (match getStr f "current-context" with
      | .ok _ => true
      | _ => false)

/-- "Each of clusters/contexts/users is present and holds a list"
(the §3 envelope shape; its negation is the `MalformedExistingDocument`
condition). -/
def hasListsB (d : Value) : Bool :=
  cats.all (fun p =>
    match getStr d p.1 with
    | .ok (.list _) => true
    | _ => false)

/-- "One of the fragment's `clusters[0]`, `contexts[0]`, `users[0]` or
`current-context` is absent" (evaluating it raises): the `MalformedFragment`
condition. -/
def fragMissingB (f : Value) : Bool :=
  (match fragGet f "clusters" with | .ok _ => false | _ => true) ||
  (match fragGet f "contexts" with | .ok _ => false | _ => true) ||
  (match fragGet f "users" with | .ok _ => false | _ => true) ||
  (match getStr f "current-context" with | .ok _ => false | _ => true)

/-- Every pair of the list carrying key `k` has value `v`. -/
def AllOcc (d : List (String × Value)) (k : String) (v : Value) : Prop :=
  ∀ p ∈ d, p.1 = k → p.2 = v

/-- The entry list produced by one category upsert: replace the payload of
the first name hit in place, else append the fragment entry. -/
def upsertList (l : List Value) (f : Value) (lk pk : String) : List Value :=
  match findNameIdx (nameOf (fragEnt f lk)) l with
  | some i => l.set i (withPayload (l.getD i .null) pk (payloadOf (fragEnt f lk) pk))
  | none => l ++ [fragEnt f lk]

/-- Keep only the first element of a (nonempty) list value. -/
def truncateList : Value → Value
  | .list (e :: _) => .list [e]
  | v => v

/-- The fragment with each of the three category lists truncated to its
first element (other keys untouched). -/
def truncate : Value → Value
  | .dict d => .dict (d.map (fun p =>
      (p.1, if p.1 = "contexts" ∨ p.1 = "clusters" ∨ p.1 = "users"
            then truncateList p.2 else p.2)))
  | v => v

/-- A sequence of in-memory merges, failing at the first exception. -/
def mergeSeq (d : Value) : List Value → Except PyErr Value
  | [] => .ok d
  | f :: rest =>
    match mergeConfig d f with
    | .error e => .error e
    | .ok r => mergeSeq r rest

/-! ## Concrete documents and fragments used by witnesses -/

/-- The spec's §8 example starting document. -/
def exDoc : Value :=
  .dict [("apiVersion", .str "v1"),
         ("clusters", .list [.dict [("name", .str "zoneA"),
           ("cluster", .dict [("server", .str "https://a")])]]),
         ("contexts", .list []),
         ("current-context", .str ""),
         ("kind", .str "Config"),
         ("preferences", .dict []),
         ("users", .list [])]

/-- The spec's §8 example fragment (zone `zoneB`). -/
def exFrag : Value :=
  .dict [("clusters", .list [.dict [("name", .str "zoneB"),
           ("cluster", .dict [("server", .str "https://b")])]]),
         ("contexts", .list [.dict [("name", .str "ctx-b"),
           ("context", .dict [("cluster", .str "zoneB"), ("user", .str "user-b")])]]),
         ("users", .list [.dict [("name", .str "user-b"),
           ("user", .dict [("token", .str "t")])]]),
         ("current-context", .str "ctx-b")]

/-- The document the example merge produces. -/
def exMerged : Value :=
  match mergeConfig exDoc exFrag with
  | .ok r => r
  | .error _ => .null

/-- A document whose `contexts` list carries two entries named `"x"`
(well-formed YAML, but violating the name-uniqueness invariant). -/
def dupDoc : Value :=
  .dict [("clusters", .list []),
         ("contexts", .list [.dict [("name", .str "x"), ("context", .str "A")],
                             .dict [("name", .str "x"), ("context", .str "B")]]),
         ("users", .list [])]

/-- A well-formed fragment whose three entries are all named `"x"`. -/
def dupFrag : Value :=
  .dict [("clusters", .list [.dict [("name", .str "x"), ("cluster", .str "C")]]),
         ("contexts", .list [.dict [("name", .str "x"), ("context", .str "N")]]),
         ("users", .list [.dict [("name", .str "x"), ("user", .str "U")]]),
         ("current-context", .str "x")]

/-- Like `dupFrag` but with different payloads (a later zone refresh). -/
def dupFrag2 : Value :=
  .dict [("clusters", .list [.dict [("name", .str "x"), ("cluster", .str "C2")]]),
         ("contexts", .list [.dict [("name", .str "x"), ("context", .str "N2")]]),
         ("users", .list [.dict [("name", .str "x"), ("user", .str "U2")]]),
         ("current-context", .str "x")]

/-- The document merging `dupFrag` into `dupDoc` produces. -/
def dupMerged : Value :=
  match mergeConfig dupDoc dupFrag with
  | .ok r => r
  | .error _ => .null

/-- A document with all three lists empty. -/
def emptyDoc : Value :=
  .dict [("clusters", .list []), ("contexts", .list []), ("users", .list [])]

/-- A fragment whose context entry `{name: "x"}` has no `"context"` payload
key: it merges fine into an empty list (the append path never reads the
payload), but a second merge of it raises `KeyError`. -/
def noPayloadFrag : Value :=
  .dict [("clusters", .list [.dict [("name", .str "x"), ("cluster", .str "C")]]),
         ("contexts", .list [.dict [("name", .str "x")]]),
         ("users", .list [.dict [("name", .str "x"), ("user", .str "U")]]),
         ("current-context", .str "x")]

/-- The document merging `noPayloadFrag` into `emptyDoc` produces. -/
def noPayloadMerged : Value :=
  match mergeConfig emptyDoc noPayloadFrag with
  | .ok r => r
  | .error _ => .null

/-- A document missing the `users` list. -/
def noUsersDoc : Value :=
  .dict [("clusters", .list []), ("contexts", .list [])]

/-- A fragment missing `current-context`. -/
def noCCFrag : Value :=
  .dict [("clusters", .list [.dict [("name", .str "x"), ("cluster", .str "C")]]),
         ("contexts", .list [.dict [("name", .str "x"), ("context", .str "N")]]),
         ("users", .list [.dict [("name", .str "x"), ("user", .str "U")]])]

/-- A fragment with two entries in each list; only the first ones matter. -/
def multiFrag : Value :=
  .dict [("clusters", .list [.dict [("name", .str "a"), ("cluster", .str "C")],
                             .dict [("name", .str "zzz"), ("cluster", .str "IGNORED")]]),
         ("contexts", .list [.dict [("name", .str "a"), ("context", .str "N")],
                             .str "garbage"]),
         ("users", .list [.dict [("name", .str "a"), ("user", .str "U")],
                          .dict [("name", .str "b"), ("user", .str "V")]]),
         ("current-context", .str "a")]

/-! # Theorems -/

mutual

theorem beqV_iff : ∀ a b : Value, beqV a b = true ↔ a = b := by
  intro a b
  cases a <;> cases b <;> simp [beqV]
  case list.list a b => exact beqL_iff a b
  case dict.dict a b => exact beqD_iff a b

theorem beqL_iff : ∀ a b : List Value, beqL a b = true ↔ a = b := by
  intro a b
  cases a <;> cases b <;> simp [beqL]
  case cons.cons x xs y ys =>
    rw [beqV_iff, beqL_iff]

theorem beqD_iff : ∀ a b : List (String × Value), beqD a b = true ↔ a = b := by
  intro a b
  cases a <;> cases b <;> simp [beqD]
  case cons.cons x xs y ys =>
    rw [beqV_iff, beqD_iff, Prod.ext_iff]

end

theorem pyEq_iff {a b : Value} : pyEq a b = true ↔ canon a = canon b := by
  rw [pyEq]
  exact beqV_iff _ _

theorem pyEq_refl (a : Value) : pyEq a a = true := pyEq_iff.mpr rfl

theorem pyEq_symm (a b : Value) : pyEq a b = pyEq b a := by
  cases h : pyEq b a with
  | true => exact pyEq_iff.mpr (pyEq_iff.mp h).symm
  | false =>
    cases h2 : pyEq a b with
    | false => rfl
    | true =>
      rw [pyEq_iff.mpr (pyEq_iff.mp h2).symm] at h
      cases h

theorem pyEq_trans {a b c : Value} (h1 : pyEq a b = true) (h2 : pyEq b c = true) :
    pyEq a c = true :=
  pyEq_iff.mpr ((pyEq_iff.mp h1).trans (pyEq_iff.mp h2))

/-! ## Pair-list (dict) lemmas -/

theorem lookups_append_of_hasKey_false {d : List (String × Value)} {k : String}
    (h : hasKey d k = false) (d2 : List (String × Value)) :
    lookups (d ++ d2) k = lookups d2 k := by
  induction d with
  | nil => simp [lookups]
  | cons p rest ih =>
    simp only [hasKey, Bool.or_eq_false_iff, decide_eq_false_iff_not] at h
    simpa [lookups, h.1] using ih h.2

theorem hasKey_false_of_mem {d : List (String × Value)} {k : String}
    (h : hasKey d k = false) {p : String × Value} (hp : p ∈ d) : p.1 ≠ k := by
  induction d with
  | nil => cases hp
  | cons q rest ih =>
    simp only [hasKey, Bool.or_eq_false_iff, decide_eq_false_iff_not] at h
    rcases List.mem_cons.mp hp with h1 | h2
    · exact h1 ▸ h.1
    · exact ih h.2 h2

theorem lookups_setExisting_self {d : List (String × Value)} {k : String}
    (v : Value) (h : hasKey d k = true) :
    lookups (setExisting d k v) k = some v := by
  induction d with
  | nil => simp [hasKey] at h
  | cons p rest ih =>
    by_cases hp : p.1 = k
    · simp [setExisting, hp, lookups]
    · simp only [hasKey, Bool.or_eq_true, decide_eq_true_eq] at h
      rcases h with h | h
      · exact absurd h hp
      · simp [setExisting, hp, lookups, ih h]

theorem lookups_setExisting_other {d : List (String × Value)} {k k2 : String}
    (v : Value) (h : k2 ≠ k) :
    lookups (setExisting d k v) k2 = lookups d k2 := by
  induction d with
  | nil => simp [setExisting]
  | cons p rest ih =>
    by_cases hp : p.1 = k
    · simp [setExisting, hp, lookups, Ne.symm h, ih]
    · simp [setExisting, hp, lookups, ih]

theorem lookups_append_other {d : List (String × Value)} {k k2 : String}
    (v : Value) (h : k2 ≠ k) :
    lookups (d ++ [(k, v)]) k2 = lookups d k2 := by
  induction d with
  | nil =>
    simp only [List.nil_append, lookups]
    rw [if_neg (fun hc => h hc.symm)]
  | cons p rest ih =>
    by_cases hp : p.1 = k2 <;> simp [lookups, hp, ih]

theorem hasKey_append_self (d : List (String × Value)) (k : String) (v : Value) :
    hasKey (d ++ [(k, v)]) k = true := by
  induction d with
  | nil => simp [hasKey]
  | cons p rest ih => simp [hasKey, ih]

theorem lookups_dictSet_self (d : List (String × Value)) (k : String) (v : Value) :
    lookups (dictSet d k v) k = some v := by
  unfold dictSet
  by_cases h : hasKey d k = true
  · simp [h, lookups_setExisting_self v h]
  · have hf : hasKey d k = false := by simpa using h
    simp [h, lookups_append_of_hasKey_false hf, lookups]

theorem lookups_dictSet_other {d : List (String × Value)} {k k2 : String}
    (v : Value) (h : k2 ≠ k) :
    lookups (dictSet d k v) k2 = lookups d k2 := by
  unfold dictSet
  by_cases hk : hasKey d k = true
  · simp [hk, lookups_setExisting_other v h]
  · simp [hk, lookups_append_other v h]

theorem hasKey_setExisting (d : List (String × Value)) (k k2 : String) (v : Value) :
    hasKey (setExisting d k v) k2 = hasKey d k2 := by
  induction d with
  | nil => simp [setExisting]
  | cons p rest ih =>
    by_cases hp : p.1 = k
    · simp [setExisting, hp, hasKey, ih]
    · simp [setExisting, hp, hasKey, ih]

theorem hasKey_dictSet_self (d : List (String × Value)) (k : String) (v : Value) :
    hasKey (dictSet d k v) k = true := by
  unfold dictSet
  by_cases h : hasKey d k = true
  · simp [h, hasKey_setExisting, h]
  · simp [h, hasKey_append_self]

theorem setExisting_of_hasKey_false {d : List (String × Value)} {k : String}
    (v : Value) (h : hasKey d k = false) : setExisting d k v = d := by
  induction d with
  | nil => rfl
  | cons p rest ih =>
    simp only [hasKey, Bool.or_eq_false_iff, decide_eq_false_iff_not] at h
    simp [setExisting, h.1, ih h.2]

theorem setExisting_append (d d2 : List (String × Value)) (k : String) (v : Value) :
    setExisting (d ++ d2) k v = setExisting d k v ++ setExisting d2 k v := by
  induction d with
  | nil => rfl
  | cons p rest ih =>
    by_cases hp : p.1 = k <;> simp [setExisting, hp, ih]

theorem setExisting_setExisting (d : List (String × Value)) (k : String) (v w : Value) :
    setExisting (setExisting d k v) k w = setExisting d k w := by
  induction d with
  | nil => rfl
  | cons p rest ih =>
    by_cases hp : p.1 = k <;> simp [setExisting, hp, ih]

theorem dictSet_dictSet (d : List (String × Value)) (k : String) (v w : Value) :
    dictSet (dictSet d k v) k w = dictSet d k w := by
  unfold dictSet
  by_cases h : hasKey d k = true
  · simp [h, hasKey_setExisting, setExisting_setExisting]
  · have hf : hasKey d k = false := by simpa using h
    simp [h, hasKey_append_self, setExisting_append,
      setExisting_of_hasKey_false w hf, setExisting]

theorem mem_setExisting {d : List (String × Value)} {k : String} {v : Value}
    {p : String × Value} (h : p ∈ setExisting d k v) : p = (k, v) ∨ p ∈ d := by
  induction d with
  | nil => cases h
  | cons q rest ih =>
    by_cases hq : q.1 = k
    · simp only [setExisting, hq, if_true] at h
      rcases List.mem_cons.mp h with h1 | h2
      · exact Or.inl h1
      · rcases ih h2 with h3 | h3
        · exact Or.inl h3
        · exact Or.inr (List.mem_cons_of_mem _ h3)
    · simp only [setExisting, hq, if_false] at h
      rcases List.mem_cons.mp h with h1 | h2
      · exact Or.inr (h1 ▸ List.mem_cons_self _ _)
      · rcases ih h2 with h3 | h3
        · exact Or.inl h3
        · exact Or.inr (List.mem_cons_of_mem _ h3)

theorem mem_setExisting_key {d : List (String × Value)} {k : String} {v : Value}
    {p : String × Value} (h : p ∈ setExisting d k v) (hpk : p.1 = k) :
    p = (k, v) := by
  induction d with
  | nil => cases h
  | cons q rest ih =>
    by_cases hq : q.1 = k
    · simp only [setExisting, hq, if_true] at h
      rcases List.mem_cons.mp h with h1 | h2
      · exact h1
      · exact ih h2
    · simp only [setExisting, hq, if_false] at h
      rcases List.mem_cons.mp h with h1 | h2
      · exact absurd (h1 ▸ hpk) hq
      · exact ih h2

theorem allOcc_dictSet_self (d : List (String × Value)) (k : String) (v : Value) :
    AllOcc (dictSet d k v) k v := by
  intro p hp hpk
  unfold dictSet at hp
  by_cases h : hasKey d k = true
  · simp only [h, if_true] at hp
    exact congrArg Prod.snd (mem_setExisting_key hp hpk)
  · simp only [h, if_false] at hp
    rcases List.mem_append.mp hp with h1 | h1
    · exact absurd hpk (hasKey_false_of_mem (Bool.not_eq_true _ ▸ h) h1)
    · rcases List.mem_singleton.mp h1 with h2
      exact congrArg Prod.snd h2

theorem allOcc_dictSet_other {d : List (String × Value)} {k k2 : String}
    {v : Value} (w : Value) (h : k ≠ k2) (ha : AllOcc d k v) :
    AllOcc (dictSet d k2 w) k v := by
  intro p hp hpk
  unfold dictSet at hp
  by_cases hk : hasKey d k2 = true
  · simp only [hk, if_true] at hp
    rcases mem_setExisting hp with h1 | h1
    · rw [h1] at hpk
      exact absurd hpk (Ne.symm h)
    · exact ha p h1 hpk
  · simp only [hk, if_false] at hp
    rcases List.mem_append.mp hp with h1 | h1
    · exact ha p h1 hpk
    · have h2 : p = (k2, w) := List.mem_singleton.mp h1
      rw [h2] at hpk
      exact absurd hpk (Ne.symm h)

theorem lookups_some_hasKey {d : List (String × Value)} {k : String} {v : Value}
    (h : lookups d k = some v) : hasKey d k = true := by
  induction d with
  | nil => simp [lookups] at h
  | cons p rest ih =>
    by_cases hp : p.1 = k
    · simp [hasKey, hp]
    · simp only [lookups, hp, if_false] at h
      simp [hasKey, ih h]

theorem setExisting_eq_of_allOcc {d : List (String × Value)} {k : String}
    {v : Value} (ha : AllOcc d k v) : setExisting d k v = d := by
  induction d with
  | nil => rfl
  | cons p rest ih =>
    have hrest : AllOcc rest k v := fun q hq => ha q (List.mem_cons_of_mem _ hq)
    by_cases hp : p.1 = k
    · have hv : p.2 = v := ha p (List.mem_cons_self _ _) hp
      have hpkv : p = (k, v) := by
        obtain ⟨a, b⟩ := p
        simp only at hp hv
        rw [hp, hv]
      simp [setExisting, hp, ih hrest, hpkv]
    · simp [setExisting, hp, ih hrest]

theorem dictSet_eq_of_allOcc {d : List (String × Value)} {k : String} {v : Value}
    (hk : hasKey d k = true) (ha : AllOcc d k v) : dictSet d k v = d := by
  unfold dictSet
  simp [hk, setExisting_eq_of_allOcc ha]

theorem allOcc_of_nodup_lookups {d : List (String × Value)} {k : String} {v : Value}
    (hn : nodupKeys d = true) (h : lookups d k = some v) : AllOcc d k v := by
  induction d with
  | nil => simp [lookups] at h
  | cons p rest ih =>
    simp only [nodupKeys, Bool.and_eq_true, List.all_eq_true] at hn
    intro q hq hqk
    by_cases hp : p.1 = k
    · simp only [lookups, hp, if_true, Option.some.injEq] at h
      rcases List.mem_cons.mp hq with h1 | h1
      · rw [h1]; exact h
      · have hne := hn.1 q h1
        simp only [Bool.not_eq_true', beq_eq_false_iff_ne, ne_eq] at hne
        exact absurd (hqk.trans hp.symm) hne
    · simp only [lookups, hp, if_false] at h
      rcases List.mem_cons.mp hq with h1 | h1
      · exact absurd (h1 ▸ hqk : p.1 = k) hp
      · exact ih hn.2 h q h1 hqk

theorem dictSet_eq_of_nodup {d : List (String × Value)} {k : String} {v : Value}
    (hn : nodupKeys d = true) (h : lookups d k = some v) : dictSet d k v = d :=
  dictSet_eq_of_allOcc (lookups_some_hasKey h) (allOcc_of_nodup_lookups hn h)

/-! ## Subscript operation lemmas -/

theorem getStr_ok_dict {c : Value} {k : String} {v : Value}
    (h : getStr c k = .ok v) : ∃ dc, c = .dict dc ∧ lookups dc k = some v := by
  cases c <;> try (cases h)
  case dict dc =>
    simp only [getStr] at h
    cases hl : lookups dc k with
    | none => rw [hl] at h; cases h
    | some w => rw [hl] at h; cases h; exact ⟨dc, rfl, hl⟩

theorem getStr_dict_eq (dc : List (String × Value)) (k : String) {v : Value}
    (h : lookups dc k = some v) : getStr (.dict dc) k = .ok v := by
  simp [getStr, h]

theorem setStrItem_ok_dict {c : Value} {k : String} {v c2 : Value}
    (h : setStrItem c k v = .ok c2) :
    ∃ dc, c = .dict dc ∧ c2 = .dict (dictSet dc k v) := by
  cases c <;> cases h
  case dict dc => exact ⟨dc, rfl, rfl⟩

theorem getStr_set_self (dc : List (String × Value)) (k : String) (v : Value) :
    getStr (.dict (dictSet dc k v)) k = .ok v := by
  simp [getStr, lookups_dictSet_self]

theorem getStr_set_other (dc : List (String × Value)) {k k2 : String} (v : Value)
    (h : k2 ≠ k) : getStr (.dict (dictSet dc k v)) k2 = getStr (.dict dc) k2 := by
  simp [getStr, lookups_dictSet_other v h]

theorem setStrItem_eq_withPayload {e : Value} {k2 : String} {n : Value}
    (hn : getStr e k2 = .ok n) (pk : String) (pay : Value) :
    setStrItem e pk pay = .ok (withPayload e pk pay) := by
  obtain ⟨ed, he, -⟩ := getStr_ok_dict hn
  rw [he]
  rfl

theorem getStr_withPayload_other {e : Value} {pk k : String} (pay : Value)
    (hne : k ≠ pk) {ed : List (String × Value)} (he : e = .dict ed) :
    getStr (withPayload e pk pay) k = getStr e k := by
  rw [he]
  simp [withPayload, getStr, lookups_dictSet_other pay hne]

theorem nameOf_withPayload {e : Value} {pk : String} (pay : Value)
    (hne : pk ≠ "name") {ed : List (String × Value)} (he : e = .dict ed) :
    nameOf (withPayload e pk pay) = nameOf e := by
  unfold nameOf
  rw [getStr_withPayload_other pay (fun hc => hne hc.symm) he]

theorem payloadOf_withPayload {e : Value} {pk : String} (pay : Value)
    {ed : List (String × Value)} (he : e = .dict ed) :
    payloadOf (withPayload e pk pay) pk = pay := by
  rw [he]
  simp [withPayload, payloadOf, getStr, lookups_dictSet_self]

theorem withPayload_withPayload (e : Value) (pk : String) (pay : Value) :
    withPayload (withPayload e pk pay) pk pay = withPayload e pk pay := by
  cases e <;> simp [withPayload, dictSet_dictSet]

theorem withPayload_eq_self {ed : List (String × Value)} {pk : String} {pay : Value}
    (hn : nodupKeys ed = true) (h : lookups ed pk = some pay) :
    withPayload (.dict ed) pk pay = .dict ed := by
  simp [withPayload, dictSet_eq_of_nodup hn h]

/-! ## Scan-loop (`replaceFirst`) lemmas -/

theorem replaceFirst_none_of {fe : Except PyErr Value} {e0 fn : Value} (pk : String)
    {l : List Value}
    (hfe : fe = .ok e0) (hfn : getStr e0 "name" = .ok fn)
    (hall : ∀ e ∈ l, ∃ n, getStr e "name" = .ok n ∧ pyEq n fn = false) :
    replaceFirst fe pk l = .ok none := by
  subst hfe
  induction l with
  | nil => rfl
  | cons e rest ih =>
    obtain ⟨n, hn, hne⟩ := hall e (List.mem_cons_self _ _)
    have hrest := ih (fun x hx => hall x (List.mem_cons_of_mem _ hx))
    simp [replaceFirst, hn, hfn, hne, hrest]

theorem replaceFirst_hit {fe : Except PyErr Value} {e0 fn pay : Value} (pk : String)
    {l : List Value} {i : Nat}
    (hfe : fe = .ok e0) (hfn : getStr e0 "name" = .ok fn)
    (hpay : getStr e0 pk = .ok pay)
    (hi : i < l.length)
    (hbefore : ∀ j, j < i →
      ∃ n, getStr (l.getD j .null) "name" = .ok n ∧ pyEq n fn = false)
    (hat : ∃ n, getStr (l.getD i .null) "name" = .ok n ∧ pyEq n fn = true) :
    replaceFirst fe pk l = .ok (some (l.set i (withPayload (l.getD i .null) pk pay))) := by
  subst hfe
  induction l generalizing i with
  | nil => cases hi
  | cons e rest ih =>
    cases i with
    | zero =>
      obtain ⟨n, hn, hyes⟩ := hat
      simp only [List.getD_cons_zero] at hn hyes
      simp [replaceFirst, hn, hfn, hyes, hpay,
        setStrItem_eq_withPayload hn pk pay]
    | succ j =>
      obtain ⟨n, hn, hno⟩ := hbefore 0 (Nat.succ_pos j)
      simp only [List.getD_cons_zero] at hn hno
      have hrest := ih (Nat.lt_of_succ_lt_succ hi)
        (fun j2 hj2 => by
          have hb := hbefore (j2 + 1) (Nat.succ_lt_succ hj2)
          simpa using hb)
        (by simpa using hat)
      simp [replaceFirst, hn, hfn, hno, hrest]

theorem replaceFirst_ok_none_inv {fe : Except PyErr Value} {pk : String}
    {l : List Value} (h : replaceFirst fe pk l = .ok none) :
    l = [] ∨ (∃ e0 fn, fe = .ok e0 ∧ getStr e0 "name" = .ok fn ∧
      ∀ e ∈ l, ∃ n, getStr e "name" = .ok n ∧ pyEq n fn = false) := by
  induction l with
  | nil => exact Or.inl rfl
  | cons e rest ih =>
    cases hg : getStr e "name" with
    | error err => simp [replaceFirst, hg] at h
    | ok n =>
      cases hfe : fe with
      | error err => simp [replaceFirst, hg, hfe] at h
      | ok e0 =>
        cases hf : getStr e0 "name" with
        | error err => simp [replaceFirst, hg, hfe, hf] at h
        | ok fn =>
          cases hq : pyEq n fn with
          | true =>
            cases hp : getStr e0 pk with
            | error err => simp [replaceFirst, hg, hfe, hf, hq, hp] at h
            | ok pay =>
              simp [replaceFirst, hg, hfe, hf, hq, hp,
                setStrItem_eq_withPayload hg pk pay] at h
          | false =>
            simp only [replaceFirst, hg, hfe, hf, hq] at h
            cases hr : replaceFirst (Except.ok e0) pk rest with
            | error err => rw [hr] at h; cases h
            | ok o =>
              cases o with
              | some rest2 => rw [hr] at h; cases h
              | none =>
                rw [← hfe] at hr
                refine Or.inr ⟨e0, fn, rfl, hf, ?_⟩
                intro x hx
                rcases List.mem_cons.mp hx with h1 | h1
                · exact ⟨n, h1 ▸ hg, hq⟩
                · rcases ih hr with h2 | h2
                  · rw [h2] at h1; cases h1
                  · obtain ⟨e02, fn2, hfe2, hf2, hall2⟩ := h2
                    rw [hfe] at hfe2
                    cases hfe2
                    rw [hf] at hf2
                    cases hf2
                    exact hall2 x h1

theorem replaceFirst_ok_some_inv {fe : Except PyErr Value} {pk : String}
    {l l2 : List Value} (h : replaceFirst fe pk l = .ok (some l2)) :
    ∃ e0 fn pay i, fe = .ok e0 ∧ getStr e0 "name" = .ok fn ∧
      getStr e0 pk = .ok pay ∧ i < l.length ∧
      (∀ j, j < i → ∃ n, getStr (l.getD j .null) "name" = .ok n ∧ pyEq n fn = false) ∧
      (∃ n, getStr (l.getD i .null) "name" = .ok n ∧ pyEq n fn = true) ∧
      (∃ ed, l.getD i .null = .dict ed) ∧
      l2 = l.set i (withPayload (l.getD i .null) pk pay) := by
  induction l generalizing l2 with
  | nil => cases h
  | cons e rest ih =>
    cases hg : getStr e "name" with
    | error err => simp [replaceFirst, hg] at h
    | ok n =>
      cases hfe : fe with
      | error err => simp [replaceFirst, hg, hfe] at h
      | ok e0 =>
        cases hf : getStr e0 "name" with
        | error err => simp [replaceFirst, hg, hfe, hf] at h
        | ok fn =>
          cases hq : pyEq n fn with
          | true =>
            cases hp : getStr e0 pk with
            | error err => simp [replaceFirst, hg, hfe, hf, hq, hp] at h
            | ok pay =>
              obtain ⟨ed, he, -⟩ := getStr_ok_dict hg
              have hcomp := replaceFirst_hit pk hfe hf hp
                (show 0 < (e :: rest).length from Nat.succ_pos _)
                (fun j hj => absurd hj (Nat.not_lt_zero j))
                ⟨n, by simpa using hg, hq⟩
              rw [hcomp] at h
              cases h
              exact ⟨e0, fn, pay, 0, rfl, hf, hp, Nat.succ_pos _,
                fun j hj => absurd hj (Nat.not_lt_zero j),
                ⟨n, by simpa using hg, hq⟩, ⟨ed, by simpa using he⟩, rfl⟩
          | false =>
            simp only [replaceFirst, hg, hfe, hf, hq] at h
            cases hr : replaceFirst (Except.ok e0) pk rest with
            | error err => rw [hr] at h; cases h
            | ok o =>
              cases o with
              | none => rw [hr] at h; cases h
              | some rest2 =>
                rw [hr] at h
                cases h
                rw [← hfe] at hr
                obtain ⟨e0r, fnr, payr, i, hfer, hfr, hpr, hir, hbr, har, hdr, hres⟩ :=
                  ih hr
                rw [hfe] at hfer
                cases hfer
                rw [hf] at hfr
                cases hfr
                refine ⟨e0, fn, payr, i + 1, rfl, hf, hpr, Nat.succ_lt_succ hir,
                  ?_, by simpa using har, by simpa using hdr, by simpa using hres⟩
                intro j hj
                cases j with
                | zero => exact ⟨n, by simpa using hg, hq⟩
                | succ j2 =>
                  have hb := hbr j2 (Nat.lt_of_succ_lt_succ hj)
                  simpa using hb

/-! ## `findNameIdx` lemmas -/

theorem nameOf_eq_of {e n : Value} (h : getStr e "name" = .ok n) : nameOf e = n := by
  simp [nameOf, h]

theorem findNameIdx_none_inv {fn : Value} {l : List Value}
    (h : findNameIdx fn l = none) : ∀ e ∈ l, pyEq (nameOf e) fn = false := by
  induction l with
  | nil => intro e he; cases he
  | cons e rest ih =>
    intro x hx
    simp only [findNameIdx] at h
    by_cases hp : pyEq (nameOf e) fn = true
    · rw [if_pos hp] at h; cases h
    · rw [if_neg hp] at h
      rcases List.mem_cons.mp hx with h1 | h1
      · rw [h1]; simpa using hp
      · cases hr : findNameIdx fn rest with
        | some i => rw [hr] at h; cases h
        | none => exact ih hr x h1

theorem findNameIdx_none_of {fn : Value} {l : List Value}
    (h : ∀ e ∈ l, pyEq (nameOf e) fn = false) : findNameIdx fn l = none := by
  induction l with
  | nil => rfl
  | cons e rest ih =>
    have he := h e (List.mem_cons_self _ _)
    have hr := ih (fun x hx => h x (List.mem_cons_of_mem _ hx))
    simp [findNameIdx, he, hr]

theorem findNameIdx_some_inv {fn : Value} {l : List Value} {i : Nat}
    (h : findNameIdx fn l = some i) :
    i < l.length ∧ pyEq (nameOf (l.getD i .null)) fn = true ∧
      ∀ j, j < i → pyEq (nameOf (l.getD j .null)) fn = false := by
  induction l generalizing i with
  | nil => cases h
  | cons e rest ih =>
    simp only [findNameIdx] at h
    by_cases hp : pyEq (nameOf e) fn = true
    · rw [if_pos hp] at h
      cases h
      exact ⟨Nat.succ_pos _, by simpa using hp,
        fun j hj => absurd hj (Nat.not_lt_zero j)⟩
    · rw [if_neg hp] at h
      cases hr : findNameIdx fn rest with
      | none => rw [hr] at h; cases h
      | some i2 =>
        rw [hr] at h
        cases h
        obtain ⟨h1, h2, h3⟩ := ih hr
        refine ⟨Nat.succ_lt_succ h1, by simpa using h2, ?_⟩
        intro j hj
        cases j with
        | zero => simpa using hp
        | succ j2 =>
          have hb := h3 j2 (Nat.lt_of_succ_lt_succ hj)
          simpa using hb

theorem findNameIdx_some_of {fn : Value} {l : List Value} {i : Nat}
    (hi : i < l.length) (hat : pyEq (nameOf (l.getD i .null)) fn = true)
    (hbefore : ∀ j, j < i → pyEq (nameOf (l.getD j .null)) fn = false) :
    findNameIdx fn l = some i := by
  induction l generalizing i with
  | nil => cases hi
  | cons e rest ih =>
    cases i with
    | zero => simp only [List.getD_cons_zero] at hat; simp [findNameIdx, hat]
    | succ j =>
      have h0 := hbefore 0 (Nat.succ_pos j)
      simp only [List.getD_cons_zero] at h0
      have hr := ih (Nat.lt_of_succ_lt_succ hi) (by simpa using hat)
        (fun j2 hj2 => by
          have hb := hbefore (j2 + 1) (Nat.succ_lt_succ hj2)
          simpa using hb)
      simp [findNameIdx, h0, hr]

/-! ## `upsertCategory` lemmas -/

theorem getD_mem {l : List Value} {i : Nat} (d : Value) (hi : i < l.length) :
    l.getD i d ∈ l := by
  rw [List.getD_eq_getElem?_getD, List.getElem?_eq_getElem hi]
  exact List.getElem_mem _

theorem lst_list_of_some {lst : Value} {items l2 : List Value}
    {fe : Except PyErr Value} {pk : String}
    (hit : iterElems lst = .ok items)
    (hr : replaceFirst fe pk items = .ok (some l2)) : lst = .list items := by
  cases lst with
  | list l => simp only [iterElems] at hit; cases hit; rfl
  | str s =>
    simp only [iterElems] at hit
    cases hit
    obtain ⟨-, -, -, i, -, -, -, hi, -, -, ⟨ed, hed⟩, -⟩ := replaceFirst_ok_some_inv hr
    have hmem : (s.data.map (fun c => Value.str (String.mk [c]))).getD i .null ∈
        s.data.map (fun c => Value.str (String.mk [c])) := getD_mem _ hi
    rw [hed] at hmem
    obtain ⟨c, -, hc⟩ := List.mem_map.mp hmem
    cases hc
  | dict d =>
    simp only [iterElems] at hit
    cases hit
    obtain ⟨-, -, -, i, -, -, -, hi, -, -, ⟨ed, hed⟩, -⟩ := replaceFirst_ok_some_inv hr
    have hmem : (d.map (fun p => Value.str p.1)).getD i .null ∈
        d.map (fun p => Value.str p.1) := getD_mem _ hi
    rw [hed] at hmem
    obtain ⟨p, -, hp⟩ := List.mem_map.mp hmem
    cases hp
  | null => cases hit
  | bool b => cases hit
  | int n => cases hit

theorem upsertCategory_ok_inv {c f c2 : Value} {lk pk : String}
    (h : upsertCategory c lk pk f = .ok c2) :
    ∃ dc l e0, c = .dict dc ∧ lookups dc lk = some (.list l) ∧
      fragGet f lk = .ok e0 ∧
      ((∃ fn pay i, getStr e0 "name" = .ok fn ∧ getStr e0 pk = .ok pay ∧
          i < l.length ∧
          (∀ j, j < i → ∃ n, getStr (l.getD j .null) "name" = .ok n ∧
            pyEq n fn = false) ∧
          (∃ n, getStr (l.getD i .null) "name" = .ok n ∧ pyEq n fn = true) ∧
          (∃ ed, l.getD i .null = .dict ed) ∧
          c2 = .dict (dictSet dc lk
            (.list (l.set i (withPayload (l.getD i .null) pk pay)))))
       ∨ ((l = [] ∨ (∃ fn, getStr e0 "name" = .ok fn ∧
            ∀ e ∈ l, ∃ n, getStr e "name" = .ok n ∧ pyEq n fn = false)) ∧
          c2 = .dict (dictSet dc lk (.list (l ++ [e0]))))) := by
  cases hg : getStr c lk with
  | error err => simp [upsertCategory, hg] at h
  | ok lst =>
    cases hit : iterElems lst with
    | error err => simp [upsertCategory, hg, hit] at h
    | ok items =>
      cases hr : replaceFirst (fragGet f lk) pk items with
      | error err => simp [upsertCategory, hg, hit, hr] at h
      | ok o =>
        cases o with
        | some items2 =>
          have hlst := lst_list_of_some hit hr
          simp only [upsertCategory, hg, hit, hr] at h
          obtain ⟨dc, hc, hc2⟩ := setStrItem_ok_dict h
          obtain ⟨dc2, hcd, hlook⟩ := getStr_ok_dict hg
          rw [hc] at hcd
          cases hcd
          obtain ⟨e0, fn, pay, i, hfe, hfn, hpay, hi, hb, ha, hd, hres⟩ :=
            replaceFirst_ok_some_inv hr
          refine ⟨dc, items, e0, hc, by rw [← hlst]; exact hlook, hfe, Or.inl
            ⟨fn, pay, i, hfn, hpay, hi, hb, ha, hd, by rw [hc2, hres]⟩⟩
        | none =>
          simp only [upsertCategory, hg, hit, hr] at h
          cases lst with
          | list l =>
            cases hfg : fragGet f lk with
            | error err => rw [hfg] at h; cases h
            | ok e0 =>
              rw [hfg] at h
              obtain ⟨dc, hc, hc2⟩ := setStrItem_ok_dict h
              obtain ⟨dc2, hcd, hlook⟩ := getStr_ok_dict hg
              rw [hc] at hcd
              cases hcd
              have hl : items = l := by
                simp only [iterElems] at hit; cases hit; rfl
              subst hl
              refine ⟨dc, items, e0, hc, hlook, rfl, Or.inr ⟨?_, hc2⟩⟩
              rw [hfg] at hr
              rcases replaceFirst_ok_none_inv hr with h1 | h1
              · exact Or.inl h1
              · obtain ⟨e02, fn, hfe2, hfn2, hall⟩ := h1
                cases hfe2
                exact Or.inr ⟨fn, hfn2, hall⟩
          | str s => cases h
          | dict d => cases h
          | null => cases h
          | bool b => cases h
          | int n => cases h

theorem upsertCategory_eval {dc : List (String × Value)} {l : List Value}
    {f e0 fn pay : Value} {lk pk : String}
    (hl : lookups dc lk = some (.list l))
    (hfg : fragGet f lk = .ok e0)
    (hfn : getStr e0 "name" = .ok fn)
    (hpay : getStr e0 pk = .ok pay)
    (hnames : ∀ e ∈ l, ∃ n, getStr e "name" = .ok n) :
    upsertCategory (.dict dc) lk pk f = .ok (.dict (dictSet dc lk (.list
      (match findNameIdx fn l with
       | some i => l.set i (withPayload (l.getD i .null) pk pay)
       | none => l ++ [e0])))) := by
  have hg : getStr (Value.dict dc) lk = .ok (.list l) := getStr_dict_eq dc lk hl
  cases hidx : findNameIdx fn l with
  | none =>
    have hall : ∀ e ∈ l, ∃ n, getStr e "name" = .ok n ∧ pyEq n fn = false := by
      intro e he
      obtain ⟨n, hn⟩ := hnames e he
      have hp := findNameIdx_none_inv hidx e he
      rw [nameOf_eq_of hn] at hp
      exact ⟨n, hn, hp⟩
    have hr := replaceFirst_none_of pk hfg hfn hall
    rw [hfg] at hr
    simp [upsertCategory, hg, iterElems, hr, hfg, setStrItem]
  | some i =>
    obtain ⟨hi, hat, hbefore⟩ := findNameIdx_some_inv hidx
    have hat2 : ∃ n, getStr (l.getD i .null) "name" = .ok n ∧ pyEq n fn = true := by
      obtain ⟨n, hn⟩ := hnames (l.getD i .null) (getD_mem _ hi)
      exact ⟨n, hn, by rw [← nameOf_eq_of hn]; exact hat⟩
    have hb2 : ∀ j, j < i →
        ∃ n, getStr (l.getD j .null) "name" = .ok n ∧ pyEq n fn = false := by
      intro j hj
      obtain ⟨n, hn⟩ := hnames (l.getD j .null) (getD_mem _ (Nat.lt_trans hj hi))
      exact ⟨n, hn, by rw [← nameOf_eq_of hn]; exact hbefore j hj⟩
    have hr := replaceFirst_hit pk hfg hfn hpay hi hb2 hat2
    simp [upsertCategory, hg, iterElems, hr, setStrItem]

theorem upsertCategory_frame {c f c2 : Value} {lk pk : String}
    (h : upsertCategory c lk pk f = .ok c2) {k2 : String} (hne : k2 ≠ lk) :
    getStr c2 k2 = getStr c k2 := by
  obtain ⟨dc, l, e0, hc, hl, hfg, hcase⟩ := upsertCategory_ok_inv h
  rcases hcase with ⟨fn, pay, i, -, -, -, -, -, -, hc2⟩ | ⟨-, hc2⟩ <;>
    rw [hc, hc2, getStr_set_other dc _ hne]

theorem upsertCategory_ok_list {c f c2 : Value} {lk pk : String}
    (h : upsertCategory c lk pk f = .ok c2) :
    ∃ l, getStr c lk = .ok (.list l) := by
  obtain ⟨dc, l, e0, hc, hl, -, -⟩ := upsertCategory_ok_inv h
  exact ⟨l, by rw [hc]; exact getStr_dict_eq dc lk hl⟩

theorem upsertCategory_ok_frag {c f c2 : Value} {lk pk : String}
    (h : upsertCategory c lk pk f = .ok c2) :
    ∃ e0, fragGet f lk = .ok e0 := by
  obtain ⟨dc, l, e0, -, -, hfg, -⟩ := upsertCategory_ok_inv h
  exact ⟨e0, hfg⟩

/-! ## List index helpers -/

theorem getD_set_self {l : List Value} {i : Nat} (x d : Value)
    (h : i < l.length) : (l.set i x).getD i d = x := by
  simp [List.getD_eq_getElem?_getD, List.getElem?_set_self, h]

theorem getD_set_other {l : List Value} {i j : Nat} (x d : Value)
    (h : j ≠ i) : (l.set i x).getD j d = l.getD j d := by
  simp [List.getD_eq_getElem?_getD, List.getElem?_set_ne (fun hc => h hc.symm)]

theorem getD_append_left {l : List Value} {i : Nat} (e d : Value)
    (h : i < l.length) : (l ++ [e]).getD i d = l.getD i d := by
  rw [List.getD_eq_getElem?_getD, List.getD_eq_getElem?_getD,
    List.getElem?_append_left h]

theorem getD_append_last (l : List Value) (e d : Value) :
    (l ++ [e]).getD l.length d = e := by
  simp [List.getD_eq_getElem?_getD]

theorem set_append_last (l : List Value) (e x : Value) :
    (l ++ [e]).set l.length x = l ++ [x] := by
  simp only [le_refl, List.set_append_right, tsub_self, List.set_cons_zero]

theorem set_getD_self {l : List Value} {i : Nat} (d : Value)
    (h : i < l.length) : l.set i (l.getD i d) = l := by
  induction l generalizing i with
  | nil => cases h
  | cons a rest ih =>
    cases i with
    | zero => simp
    | succ j => simpa using ih (Nat.lt_of_succ_lt_succ h)

/-! ## `mergeConfig` lemmas -/

theorem mergeConfig_ok_inv {d f r : Value} (h : mergeConfig d f = .ok r) :
    ∃ c1 c2 c3 cc c3d,
      upsertCategory d "contexts" "context" f = .ok c1 ∧
      upsertCategory c1 "clusters" "cluster" f = .ok c2 ∧
      upsertCategory c2 "users" "user" f = .ok c3 ∧
      getStr f "current-context" = .ok cc ∧
      c3 = .dict c3d ∧ r = .dict (dictSet c3d "current-context" cc) := by
  cases h1 : upsertCategory d "contexts" "context" f with
  | error e => simp [mergeConfig, h1] at h
  | ok c1 =>
    cases h2 : upsertCategory c1 "clusters" "cluster" f with
    | error e => simp [mergeConfig, h1, h2] at h
    | ok c2 =>
      cases h3 : upsertCategory c2 "users" "user" f with
      | error e => simp [mergeConfig, h1, h2, h3] at h
      | ok c3 =>
        cases h4 : getStr f "current-context" with
        | error e => simp [mergeConfig, h1, h2, h3, h4] at h
        | ok cc =>
          simp only [mergeConfig, h1, h2, h3, h4] at h
          obtain ⟨c3d, hc3, hr⟩ := setStrItem_ok_dict h
          exact ⟨c1, c2, c3, cc, c3d, rfl, h2, h3, rfl, hc3, hr⟩

theorem mergeConfig_eval {d f c1 c2 c3 cc : Value} {c3d : List (String × Value)}
    (h1 : upsertCategory d "contexts" "context" f = .ok c1)
    (h2 : upsertCategory c1 "clusters" "cluster" f = .ok c2)
    (h3 : upsertCategory c2 "users" "user" f = .ok c3)
    (h4 : getStr f "current-context" = .ok cc)
    (hc3 : c3 = .dict c3d) :
    mergeConfig d f = .ok (.dict (dictSet c3d "current-context" cc)) := by
  simp [mergeConfig, h1, h2, h3, h4, hc3, setStrItem]

theorem mergeConfig_cc {d f r : Value} (h : mergeConfig d f = .ok r) :
    getStr r "current-context" = getStr f "current-context" := by
  obtain ⟨c1, c2, c3, cc, c3d, h1, h2, h3, h4, hc3, hr⟩ := mergeConfig_ok_inv h
  rw [hr, getStr_set_self, h4]

theorem mergeConfig_frame {d f r : Value} (h : mergeConfig d f = .ok r)
    {k : String} (h1 : k ≠ "contexts") (h2 : k ≠ "clusters") (h3 : k ≠ "users")
    (h4 : k ≠ "current-context") : getStr r k = getStr d k := by
  obtain ⟨c1, c2, c3, cc, c3d, hu1, hu2, hu3, hcc, hc3, hr⟩ := mergeConfig_ok_inv h
  rw [hr, getStr_set_other c3d _ h4, ← hc3,
    upsertCategory_frame hu3 h3, upsertCategory_frame hu2 h2,
    upsertCategory_frame hu1 h1]

/-- The three list keys of the three categories are pairwise distinct and
distinct from `"current-context"`.  Enumerates membership in `cats`. -/
theorem cats_cases {lk pk : String} (h : (lk, pk) ∈ cats) :
    (lk = "contexts" ∧ pk = "context") ∨ (lk = "clusters" ∧ pk = "cluster") ∨
      (lk = "users" ∧ pk = "user") := by
  simp only [cats, List.mem_cons, List.mem_singleton, Prod.mk.injEq,
    List.not_mem_nil, or_false] at h
  exact h

/-- The per-category entry list of the merge result, as read back through
`getStr`: the result of the category's own upsert, untouched by the other
two upserts and the `current-context` assignment. -/
theorem mergeConfig_entries {d f r : Value} (h : mergeConfig d f = .ok r)
    {lk pk : String} (hp : (lk, pk) ∈ cats) :
    ∃ c c2, upsertCategory c lk pk f = .ok c2 ∧ getStr r lk = getStr c2 lk ∧
      getStr c lk = getStr d lk := by
  obtain ⟨c1, c2, c3, cc, c3d, hu1, hu2, hu3, hcc, hc3, hr⟩ := mergeConfig_ok_inv h
  rcases cats_cases hp with ⟨h1, h2⟩ | ⟨h1, h2⟩ | ⟨h1, h2⟩ <;> subst h1 <;> subst h2
  · refine ⟨d, c1, hu1, ?_, rfl⟩
    rw [hr, getStr_set_other c3d _ (by decide), ← hc3,
      upsertCategory_frame hu3 (by decide), upsertCategory_frame hu2 (by decide)]
  · refine ⟨c1, c2, hu2, ?_, upsertCategory_frame hu1 (by decide)⟩
    rw [hr, getStr_set_other c3d _ (by decide), ← hc3,
      upsertCategory_frame hu3 (by decide)]
  · refine ⟨c2, c3, hu3, ?_, ?_⟩
    · rw [hr, getStr_set_other c3d _ (by decide), ← hc3]
    · rw [upsertCategory_frame hu2 (by decide), upsertCategory_frame hu1 (by decide)]

/-! ## Name, count and distinctness lemmas -/

theorem hasNameB_iff {e : Value} :
    hasNameB e = true ↔ ∃ n, getStr e "name" = .ok n := by
  unfold hasNameB
  cases h : getStr e "name" with
  | error err => simp
  | ok n => simp

theorem all_bnot_congr (a : Value) {l l2 : List Value}
    (h : l.map nameOf = l2.map nameOf) :
    l.all (fun e2 => !(pyEq a (nameOf e2))) =
      l2.all (fun e2 => !(pyEq a (nameOf e2))) := by
  induction l generalizing l2 with
  | nil => cases l2 <;> simp_all
  | cons x xs ih =>
    cases l2 with
    | nil => simp at h
    | cons y ys =>
      simp only [List.map_cons, List.cons.injEq] at h
      simp [List.all_cons, h.1, ih h.2]

theorem distinctNames_eq_of_map {l l2 : List Value}
    (h : l.map nameOf = l2.map nameOf) : distinctNames l = distinctNames l2 := by
  induction l generalizing l2 with
  | nil => cases l2 <;> simp_all [distinctNames]
  | cons x xs ih =>
    cases l2 with
    | nil => simp at h
    | cons y ys =>
      simp only [List.map_cons, List.cons.injEq] at h
      simp only [distinctNames]
      rw [h.1, all_bnot_congr (nameOf y) h.2, ih h.2]

theorem map_nameOf_getD (l : List Value) (i : Nat) :
    (l.map nameOf).getD i Value.null = nameOf (l.getD i Value.null) := by
  induction l generalizing i with
  | nil => simp [nameOf, getStr]
  | cons e rest ih =>
    cases i with
    | zero => simp
    | succ j => simpa using ih j

theorem distinctNames_set {l : List Value} {i : Nat} {x : Value}
    (hi : i < l.length) (hx : nameOf x = nameOf (l.getD i .null)) :
    distinctNames (l.set i x) = distinctNames l := by
  apply distinctNames_eq_of_map
  rw [List.map_set, hx, ← map_nameOf_getD l i]
  exact set_getD_self _ (by simpa using hi)

theorem distinctNames_append_single {l : List Value} {e0 : Value}
    (hd : distinctNames l = true)
    (hall : ∀ e ∈ l, pyEq (nameOf e) (nameOf e0) = false) :
    distinctNames (l ++ [e0]) = true := by
  induction l with
  | nil => simp [distinctNames]
  | cons e rest ih =>
    simp only [distinctNames, Bool.and_eq_true, List.all_eq_true] at hd
    simp only [List.cons_append, distinctNames, Bool.and_eq_true, List.all_eq_true]
    refine ⟨?_, ih hd.2 (fun x hx => hall x (List.mem_cons_of_mem _ hx))⟩
    intro x hx
    rcases List.mem_append.mp hx with h1 | h1
    · exact hd.1 x h1
    · have hx0 : x = e0 := List.mem_singleton.mp h1
      rw [hx0]
      simp [hall e (List.mem_cons_self _ _)]

theorem countNamed_eq_of_map {l l2 : List Value} (n : Value)
    (h : l.map nameOf = l2.map nameOf) : countNamed l n = countNamed l2 n := by
  induction l generalizing l2 with
  | nil => cases l2 <;> simp_all [countNamed]
  | cons x xs ih =>
    cases l2 with
    | nil => simp at h
    | cons y ys =>
      simp only [List.map_cons, List.cons.injEq] at h
      simp only [countNamed, List.filter_cons, h.1]
      cases hq : pyEq (nameOf y) n <;>
        simpa [hq] using ih h.2

theorem countNamed_set {l : List Value} {i : Nat} {x : Value} (n : Value)
    (hi : i < l.length) (hx : nameOf x = nameOf (l.getD i .null)) :
    countNamed (l.set i x) n = countNamed l n := by
  apply countNamed_eq_of_map
  rw [List.map_set, hx, ← map_nameOf_getD l i]
  exact set_getD_self _ (by simpa using hi)

theorem countNamed_append (l l2 : List Value) (n : Value) :
    countNamed (l ++ l2) n = countNamed l n + countNamed l2 n := by
  simp [countNamed, List.filter_append]

theorem countNamed_eq_zero {l : List Value} {n : Value}
    (h : ∀ e ∈ l, pyEq (nameOf e) n = false) : countNamed l n = 0 := by
  simp only [countNamed, List.length_eq_zero]
  exact List.filter_eq_nil_iff.mpr (fun e he => by simp [h e he])

theorem countNamed_le_one_of_distinct {l : List Value} (n : Value)
    (hd : distinctNames l = true) : countNamed l n ≤ 1 := by
  induction l with
  | nil => simp [countNamed]
  | cons e rest ih =>
    simp only [distinctNames, Bool.and_eq_true, List.all_eq_true] at hd
    simp only [countNamed, List.filter_cons]
    cases hq : pyEq (nameOf e) n with
    | false =>
      simpa [hq, countNamed] using ih hd.2
    | true =>
      have hz : countNamed rest n = 0 := by
        apply countNamed_eq_zero
        intro x hx
        cases hq2 : pyEq (nameOf x) n with
        | false => rfl
        | true =>
          have hne := hd.1 x hx
          rw [pyEq_symm (nameOf x) n] at hq2
          have hex : pyEq (nameOf e) (nameOf x) = true := pyEq_trans hq hq2
          rw [hex] at hne
          cases hne
      simp only [countNamed] at hz
      simp [hq, countNamed, hz]

theorem countNamed_pos_of_hit {l : List Value} {i : Nat} {n : Value}
    (hi : i < l.length) (hat : pyEq (nameOf (l.getD i .null)) n = true) :
    0 < countNamed l n := by
  have hmem := getD_mem Value.null hi
  have hmem2 : l.getD i Value.null ∈ l.filter (fun e => pyEq (nameOf e) n) :=
    List.mem_filter.mpr ⟨hmem, hat⟩
  simp only [countNamed, List.length_pos]
  exact List.ne_nil_of_mem hmem2

theorem findNamed_set_hit {l : List Value} {i : Nat} {x n : Value}
    (hi : i < l.length)
    (hbefore : ∀ j, j < i → pyEq (nameOf (l.getD j .null)) n = false)
    (hat : pyEq (nameOf x) n = true) :
    findNamed (l.set i x) n = x := by
  induction l generalizing i with
  | nil => cases hi
  | cons e rest ih =>
    cases i with
    | zero => simp [findNamed, List.find?, hat]
    | succ j =>
      have h0 := hbefore 0 (Nat.succ_pos j)
      simp only [List.getD_cons_zero] at h0
      have hr := ih (Nat.lt_of_succ_lt_succ hi)
        (fun j2 hj2 => by
          have hb := hbefore (j2 + 1) (Nat.succ_lt_succ hj2)
          simpa using hb)
      simp only [List.set_cons_succ, findNamed, List.find?, h0]
      simpa [findNamed] using hr

theorem findNamed_append_hit {l : List Value} {e0 n : Value}
    (hall : ∀ e ∈ l, pyEq (nameOf e) n = false) (hat : pyEq (nameOf e0) n = true) :
    findNamed (l ++ [e0]) n = e0 := by
  induction l with
  | nil => simp [findNamed, List.find?, hat]
  | cons e rest ih =>
    have h0 := hall e (List.mem_cons_self _ _)
    have hr := ih (fun x hx => hall x (List.mem_cons_of_mem _ hx))
    simp only [List.cons_append, findNamed, List.find?, h0]
    simpa [findNamed] using hr

/-! ## Well-formedness unfolding -/

theorem wfDoc_iff {d : Value} : wfDoc d = true ↔
    ∀ p : String × String, p ∈ cats → ∃ l, getStr d p.1 = .ok (.list l) ∧
      (∀ e ∈ l, hasNameB e = true) ∧ distinctNames l = true := by
  unfold wfDoc
  rw [List.all_eq_true]
  constructor
  · intro h p hp
    have hb := h p hp
    cases hg : getStr d p.1 with
    | error err => rw [hg] at hb; cases hb
    | ok v =>
      cases v <;> rw [hg] at hb <;> try (cases hb)
      case list l =>
        simp only [Bool.and_eq_true, List.all_eq_true] at hb
        exact ⟨l, rfl, hb.1, hb.2⟩
  · intro h p hp
    obtain ⟨l, hg, hn, hd⟩ := h p hp
    rw [hg]
    simp only [Bool.and_eq_true, List.all_eq_true]
    exact ⟨hn, hd⟩

theorem wfFrag_spec {f : Value} (h : wfFrag f = true) :
    (∀ p : String × String, p ∈ cats → ∃ ed, fragGet f p.1 = .ok (.dict ed) ∧
      nodupKeys ed = true ∧ (∃ n, getStr (.dict ed) "name" = .ok n) ∧
      (∃ pay, lookups ed p.2 = some pay)) ∧
    ∃ cc, getStr f "current-context" = .ok cc := by
  unfold wfFrag at h
  rw [Bool.and_eq_true, List.all_eq_true] at h
  constructor
  · intro p hp
    have hb := h.1 p hp
    cases hg : fragGet f p.1 with
    | error err => rw [hg] at hb; cases hb
    | ok v =>
      cases v <;> rw [hg] at hb <;> try (cases hb)
      case dict ed =>
        simp only [Bool.and_eq_true] at hb
        refine ⟨ed, rfl, hb.1.1, hasNameB_iff.mp hb.1.2, ?_⟩
        cases hl : lookups ed p.2 with
        | none => rw [hl] at hb; rcases hb with ⟨-, hb2⟩; cases hb2
        | some pay => exact ⟨pay, rfl⟩
  · have hb := h.2
    cases hg : getStr f "current-context" with
    | error err => rw [hg] at hb; cases hb
    | ok cc => exact ⟨cc, rfl⟩

theorem fragEnt_eq {f : Value} {lk : String} {e0 : Value}
    (h : fragGet f lk = .ok e0) : fragEnt f lk = e0 := by
  simp [fragEnt, h]

theorem payloadOf_eq_of {e : Value} {pk : String} {pay : Value}
    (h : getStr e pk = .ok pay) : payloadOf e pk = pay := by
  simp [payloadOf, h]

theorem entriesOf_eq {d : Value} {lk : String} {l : List Value}
    (h : getStr d lk = .ok (.list l)) : entriesOf d lk = l := by
  simp [entriesOf, h]

theorem upsertCategory_wf {dd : List (String × Value)} {f : Value} {lk pk : String}
    {l : List Value} {ed : List (String × Value)}
    (hpk : pk ≠ "name")
    (hl : lookups dd lk = some (.list l))
    (hnames : ∀ e ∈ l, hasNameB e = true)
    (hdist : distinctNames l = true)
    (hfg : fragGet f lk = .ok (.dict ed))
    (hname : ∃ n, getStr (.dict ed) "name" = .ok n)
    (hpay : ∃ pay, lookups ed pk = some pay) :
    upsertCategory (.dict dd) lk pk f =
      .ok (.dict (dictSet dd lk (.list (upsertList l f lk pk)))) ∧
    (∀ e ∈ upsertList l f lk pk, hasNameB e = true) ∧
    distinctNames (upsertList l f lk pk) = true := by
  obtain ⟨fn, hfn⟩ := hname
  obtain ⟨pay, hpayl⟩ := hpay
  have hpayE : getStr (.dict ed) pk = .ok pay := getStr_dict_eq ed pk hpayl
  have hnamesE : ∀ e ∈ l, ∃ n, getStr e "name" = .ok n :=
    fun e he => hasNameB_iff.mp (hnames e he)
  have hfrageq : fragEnt f lk = .dict ed := fragEnt_eq hfg
  have hnfrag : nameOf (fragEnt f lk) = fn := by
    rw [hfrageq]; exact nameOf_eq_of hfn
  have hpfrag : payloadOf (fragEnt f lk) pk = pay := by
    rw [hfrageq]; exact payloadOf_eq_of hpayE
  have heval := upsertCategory_eval hl hfg hfn hpayE hnamesE
  have hlist : upsertList l f lk pk =
      match findNameIdx fn l with
      | some i => l.set i (withPayload (l.getD i .null) pk pay)
      | none => l ++ [.dict ed] := by
    rw [upsertList, hnfrag, hpfrag, hfrageq]
  refine ⟨by rw [hlist]; exact heval, ?_, ?_⟩
  · intro e he
    rw [hlist] at he
    cases hidx : findNameIdx fn l with
    | some i =>
      rw [hidx] at he
      rcases List.mem_or_eq_of_mem_set he with h1 | h1
      · exact hnames e h1
      · obtain ⟨hi, -, -⟩ := findNameIdx_some_inv hidx
        obtain ⟨ni, hni⟩ := hnamesE _ (getD_mem Value.null hi)
        obtain ⟨edi, hedi, -⟩ := getStr_ok_dict hni
        rw [h1]
        exact hasNameB_iff.mpr ⟨ni, by
          rw [getStr_withPayload_other pay (fun hc => hpk hc.symm) hedi]
          exact hni⟩
    | none =>
      rw [hidx] at he
      rcases List.mem_append.mp he with h1 | h1
      · exact hnames e h1
      · rw [List.mem_singleton.mp h1]
        exact hasNameB_iff.mpr ⟨fn, hfn⟩
  · rw [hlist]
    cases hidx : findNameIdx fn l with
    | some i =>
      obtain ⟨hi, -, -⟩ := findNameIdx_some_inv hidx
      obtain ⟨ni, hni⟩ := hnamesE _ (getD_mem Value.null hi)
      obtain ⟨edi, hedi, -⟩ := getStr_ok_dict hni
      rw [distinctNames_set hi (nameOf_withPayload pay hpk hedi)]
      exact hdist
    | none =>
      apply distinctNames_append_single hdist
      intro e he
      have hp := findNameIdx_none_inv hidx e he
      rw [nameOf_eq_of hfn]
      exact hp

theorem mergeConfig_wf {d f : Value} (hd : wfDoc d = true) (hf : wfFrag f = true) :
    ∃ r, mergeConfig d f = .ok r ∧ wfDoc r = true ∧
      getStr r "current-context" = getStr f "current-context" ∧
      ∀ p : String × String, p ∈ cats →
        entriesOf r p.1 = upsertList (entriesOf d p.1) f p.1 p.2 := by
  have hdspec := wfDoc_iff.mp hd
  obtain ⟨hfspec, cc, hcc⟩ := wfFrag_spec hf
  obtain ⟨l1, hg1, hn1, hd1⟩ := hdspec ("contexts", "context") (by simp [cats])
  obtain ⟨l2, hg2, hn2, hd2⟩ := hdspec ("clusters", "cluster") (by simp [cats])
  obtain ⟨l3, hg3, hn3, hd3⟩ := hdspec ("users", "user") (by simp [cats])
  obtain ⟨ed1, hf1, hnd1, hnm1, hp1⟩ := hfspec ("contexts", "context") (by simp [cats])
  obtain ⟨ed2, hf2, hnd2, hnm2, hp2⟩ := hfspec ("clusters", "cluster") (by simp [cats])
  obtain ⟨ed3, hf3, hnd3, hnm3, hp3⟩ := hfspec ("users", "user") (by simp [cats])
  obtain ⟨dd, hdd, hl1⟩ := getStr_ok_dict hg1
  subst hdd
  have hl2 : lookups dd "clusters" = some (.list l2) := by
    obtain ⟨dd2, hdd2, hL⟩ := getStr_ok_dict hg2
    cases hdd2
    exact hL
  have hl3 : lookups dd "users" = some (.list l3) := by
    obtain ⟨dd3, hdd3, hL⟩ := getStr_ok_dict hg3
    cases hdd3
    exact hL
  obtain ⟨hu1, hnm1r, hds1⟩ :=
    upsertCategory_wf (by decide) hl1 hn1 hd1 hf1 hnm1 hp1
  have hl2b : lookups (dictSet dd "contexts" (.list (upsertList l1 f "contexts" "context")))
      "clusters" = some (.list l2) := by
    rw [lookups_dictSet_other _ (by decide)]
    exact hl2
  obtain ⟨hu2, hnm2r, hds2⟩ :=
    upsertCategory_wf (by decide) hl2b hn2 hd2 hf2 hnm2 hp2
  have hl3b : lookups (dictSet (dictSet dd "contexts"
      (.list (upsertList l1 f "contexts" "context"))) "clusters"
      (.list (upsertList l2 f "clusters" "cluster"))) "users" = some (.list l3) := by
    rw [lookups_dictSet_other _ (by decide), lookups_dictSet_other _ (by decide)]
    exact hl3
  obtain ⟨hu3, hnm3r, hds3⟩ :=
    upsertCategory_wf (by decide) hl3b hn3 hd3 hf3 hnm3 hp3
  have hmerge := mergeConfig_eval hu1 hu2 hu3 hcc rfl
  refine ⟨_, hmerge, ?_, ?_, ?_⟩
  · rw [wfDoc_iff]
    intro p hp
    obtain ⟨lk, pk⟩ := p
    rcases cats_cases hp with ⟨e1, e2⟩ | ⟨e1, e2⟩ | ⟨e1, e2⟩ <;> subst e1 <;> subst e2
    · refine ⟨upsertList l1 f "contexts" "context", ?_, hnm1r, hds1⟩
      rw [getStr_set_other _ _ (by decide), getStr_set_other _ _ (by decide),
        getStr_set_other _ _ (by decide), getStr_set_self]
    · refine ⟨upsertList l2 f "clusters" "cluster", ?_, hnm2r, hds2⟩
      rw [getStr_set_other _ _ (by decide), getStr_set_other _ _ (by decide),
        getStr_set_self]
    · refine ⟨upsertList l3 f "users" "user", ?_, hnm3r, hds3⟩
      rw [getStr_set_other _ _ (by decide), getStr_set_self]
  · rw [getStr_set_self, hcc]
  · intro p hp
    obtain ⟨lk, pk⟩ := p
    rcases cats_cases hp with ⟨e1, e2⟩ | ⟨e1, e2⟩ | ⟨e1, e2⟩ <;> subst e1 <;> subst e2
    · rw [entriesOf_eq hg1]
      apply entriesOf_eq
      rw [getStr_set_other _ _ (by decide), getStr_set_other _ _ (by decide),
        getStr_set_other _ _ (by decide), getStr_set_self]
    · rw [entriesOf_eq hg2]
      apply entriesOf_eq
      rw [getStr_set_other _ _ (by decide), getStr_set_other _ _ (by decide),
        getStr_set_self]
    · rw [entriesOf_eq hg3]
      apply entriesOf_eq
      rw [getStr_set_other _ _ (by decide), getStr_set_self]

theorem update_some_ok {d f r : Value}
    (h : (update_kubeconfig (some d) f).2 = .ok r) : mergeConfig d f = .ok r := by
  cases hm : mergeConfig d f with
  | error e => simp [update_kubeconfig, hm] at h
  | ok r2 =>
    simp only [update_kubeconfig, hm] at h
    cases h
    rfl

theorem update_some_writes {d f r : Value}
    (h : (update_kubeconfig (some d) f).2 = .ok r) :
    (update_kubeconfig (some d) f).1 = [r] := by
  have hm := update_some_ok h
  simp [update_kubeconfig, hm]

theorem distinct_pairwise {l : List Value} (hd : distinctNames l = true)
    {i j : Nat} (hij : i < j) (hj : j < l.length) :
    pyEq (nameOf (l.getD i .null)) (nameOf (l.getD j .null)) = false := by
  induction l generalizing i j with
  | nil => cases hj
  | cons e rest ih =>
    simp only [distinctNames, Bool.and_eq_true, List.all_eq_true] at hd
    cases i with
    | zero =>
      cases j with
      | zero => cases hij
      | succ j2 =>
        have hmem : rest.getD j2 .null ∈ rest :=
          getD_mem _ (Nat.lt_of_succ_lt_succ hj)
        have hb := hd.1 _ hmem
        simp only [Bool.not_eq_true'] at hb
        simpa using hb
    | succ i2 =>
      cases j with
      | zero => cases hij
      | succ j2 =>
        have hr := ih hd.2 (Nat.lt_of_succ_lt_succ hij) (Nat.lt_of_succ_lt_succ hj)
        simpa using hr

theorem distinct_unique_hit {l : List Value} {fn : Value} {i : Nat}
    (hd : distinctNames l = true) (hi : i < l.length)
    (hat : pyEq (nameOf (l.getD i .null)) fn = true) :
    ∀ j, j < l.length → j ≠ i → pyEq (nameOf (l.getD j .null)) fn = false := by
  intro j hj hne
  cases hq : pyEq (nameOf (l.getD j .null)) fn with
  | false => rfl
  | true =>
    exfalso
    have hji : pyEq (nameOf (l.getD j .null)) (nameOf (l.getD i .null)) = true := by
      rw [pyEq_symm (nameOf (l.getD i .null)) fn] at hat
      exact pyEq_trans hq hat
    rcases Nat.lt_or_ge j i with hlt | hge
    · have hfalse := distinct_pairwise hd hlt hi
      rw [hji] at hfalse
      cases hfalse
    · have hlt2 : i < j := Nat.lt_of_le_of_ne hge (fun hc => hne hc.symm)
      have hfalse := distinct_pairwise hd hlt2 hj
      rw [pyEq_symm] at hji
      rw [hji] at hfalse
      cases hfalse

/-! # Claim theorems -/

/-- C3: for every file state and fragment, when `update_kubeconfig`
succeeds, the persisted document's `current-context` equals the fragment's
`current-context` — last-write-wins, unconditionally: the final assignment
(line 110) runs on every success path, also when that context name did not
previously exist, and each repeated merge overwrites it again. -/
theorem claim_C3_current_context_overwrite (file : Option Value) (f r : Value)
    (h : (update_kubeconfig file f).2 = .ok r) :
    getStr r "current-context" = getStr f "current-context" := by
  cases file with
  | some d =>
    cases hm : mergeConfig d f with
    | error e => simp [update_kubeconfig, hm] at h
    | ok r2 =>
      simp only [update_kubeconfig, hm] at h
      cases h
      exact mergeConfig_cc hm
  | none =>
    cases hm : mergeConfig skeleton f with
    | error e => simp [update_kubeconfig, hm] at h
    | ok r2 =>
      simp only [update_kubeconfig, hm] at h
      cases h
      exact mergeConfig_cc hm

theorem claim_C3_witness :
    (update_kubeconfig (some exDoc) exFrag).2 = .ok exMerged ∧
      getStr exMerged "current-context" = getStr exFrag "current-context" :=
  ⟨rfl, claim_C3_current_context_overwrite (some exDoc) exFrag exMerged rfl⟩

/-- C5: if the existing document parses but one of `clusters`/`contexts`/
`users` is missing or not a list, the run raises before the single final
write: no write occurs, so the on-disk file is left unmutated (the spec's
`MalformedExistingDocument` failure, surfaced as an uncaught exception). -/
theorem claim_C5_malformed_existing_document (d f : Value)
    (h : hasListsB d = false) :
    (update_kubeconfig (some d) f).1 = [] ∧
      ∃ e, (update_kubeconfig (some d) f).2 = .error e := by
  cases hm : mergeConfig d f with
  | error e =>
    exact ⟨by simp [update_kubeconfig, hm], e, by simp [update_kubeconfig, hm]⟩
  | ok r =>
    exfalso
    obtain ⟨c1, c2, c3, cc, c3d, hu1, hu2, hu3, hcc, hc3, hr⟩ := mergeConfig_ok_inv hm
    obtain ⟨l1, hg1⟩ := upsertCategory_ok_list hu1
    obtain ⟨l2, hg2⟩ := upsertCategory_ok_list hu2
    obtain ⟨l3, hg3⟩ := upsertCategory_ok_list hu3
    rw [upsertCategory_frame hu1 (by decide)] at hg2
    rw [upsertCategory_frame hu2 (by decide),
      upsertCategory_frame hu1 (by decide)] at hg3
    have ht : hasListsB d = true := by simp [hasListsB, cats, hg1, hg2, hg3]
    rw [ht] at h
    cases h

theorem claim_C5_witness :
    hasListsB noUsersDoc = false ∧
      ((update_kubeconfig (some noUsersDoc) exFrag).1 = [] ∧
        ∃ e, (update_kubeconfig (some noUsersDoc) exFrag).2 = .error e) :=
  ⟨rfl, claim_C5_malformed_existing_document noUsersDoc exFrag rfl⟩

/-- C6: if any of the fragment's `clusters[0]`, `contexts[0]`, `users[0]`
or `current-context` is absent, the run raises before the final write
(the spec's `MalformedFragment` failure): against an existing file nothing
is written at all, and against an absent file only the fragment-independent
skeleton has been written — the merged document is never partially written. -/
theorem claim_C6_malformed_fragment (f : Value) (h : fragMissingB f = true)
    (file : Option Value) :
    (∃ e, (update_kubeconfig file f).2 = .error e) ∧
      (update_kubeconfig file f).1 =
        (match file with
         | some _ => []
         | none => [skeleton]) := by
  have key : ∀ c : Value, ∃ e, mergeConfig c f = .error e := by
    intro c
    cases hm : mergeConfig c f with
    | error e => exact ⟨e, rfl⟩
    | ok r =>
      exfalso
      obtain ⟨c1, c2, c3, cc, c3d, hu1, hu2, hu3, hcc, -, -⟩ := mergeConfig_ok_inv hm
      obtain ⟨e1, hfg1⟩ := upsertCategory_ok_frag hu1
      obtain ⟨e2, hfg2⟩ := upsertCategory_ok_frag hu2
      obtain ⟨e3, hfg3⟩ := upsertCategory_ok_frag hu3
      have hfalse : fragMissingB f = false := by
        simp [fragMissingB, hfg1, hfg2, hfg3, hcc]
      rw [hfalse] at h
      cases h
  cases file with
  | some d =>
    obtain ⟨e, hm⟩ := key d
    exact ⟨⟨e, by simp [update_kubeconfig, hm]⟩, by simp [update_kubeconfig, hm]⟩
  | none =>
    obtain ⟨e, hm⟩ := key skeleton
    exact ⟨⟨e, by simp [update_kubeconfig, hm]⟩, by simp [update_kubeconfig, hm]⟩

theorem claim_C6_witness :
    fragMissingB noCCFrag = true ∧
      ((∃ e, (update_kubeconfig (some exDoc) noCCFrag).2 = .error e) ∧
        (update_kubeconfig (some exDoc) noCCFrag).1 = []) :=
  ⟨rfl, claim_C6_malformed_fragment noCCFrag rfl (some exDoc)⟩

/-- C7: merging against an absent file first writes exactly the empty
skeleton — `apiVersion "v1"`, `kind "Config"`, empty `clusters`/`contexts`/
`users` lists, empty `current-context` string, empty `preferences` mapping —
and then proceeds exactly as a merge against a file holding that skeleton,
whose load always succeeds; the skeleton satisfies the document invariants
(three lists present, names trivially unique).  The parent-directory
creation is filesystem glue outside the embedding. -/
theorem claim_C7_skeleton_initialization (f : Value) :
    skeleton = .dict [("apiVersion", .str "v1"), ("clusters", .list []),
      ("contexts", .list []), ("current-context", .str ""),
      ("kind", .str "Config"), ("preferences", .dict []),
      ("users", .list [])] ∧
    wfDoc skeleton = true ∧
    (∀ p : String × String, p ∈ cats → entriesOf skeleton p.1 = []) ∧
    getStr skeleton "current-context" = .ok (.str "") ∧
    getStr skeleton "preferences" = .ok (.dict []) ∧
    (update_kubeconfig none f).1.head? = some skeleton ∧
    (update_kubeconfig none f).2 = mergeConfig skeleton f := by
  refine ⟨rfl, rfl, ?_, rfl, rfl, ?_, ?_⟩
  · intro p hp
    obtain ⟨lk, pk⟩ := p
    rcases cats_cases hp with ⟨e1, e2⟩ | ⟨e1, e2⟩ | ⟨e1, e2⟩ <;> subst e1 <;> rfl
  · cases hm : mergeConfig skeleton f <;> simp [update_kubeconfig, hm]
  · cases hm : mergeConfig skeleton f <;> simp [update_kubeconfig, hm]

/-- C8: every top-level field other than the three category lists and
`current-context` — `preferences`, `apiVersion`, `kind`, and any unknown
key — is carried through a successful `update_kubeconfig` unchanged into
the single persisted result, and every entry whose name differs from the
fragment's entry name (in particular with all its extra payload keys) is
carried through identically at its index. -/
theorem claim_C8_schema_preservation (d f r : Value)
    (h : (update_kubeconfig (some d) f).2 = .ok r) :
    (update_kubeconfig (some d) f).1 = [r] ∧
    (∀ k : String, k ≠ "contexts" → k ≠ "clusters" → k ≠ "users" →
      k ≠ "current-context" → getStr r k = getStr d k) ∧
    (∀ p : String × String, p ∈ cats → ∀ i, i < (entriesOf d p.1).length →
      pyEq (nameOf ((entriesOf d p.1).getD i .null))
        (nameOf (fragEnt f p.1)) = false →
      (entriesOf r p.1).getD i .null = (entriesOf d p.1).getD i .null) := by
  have hm := update_some_ok h
  refine ⟨update_some_writes h, fun k h1 h2 h3 h4 => mergeConfig_frame hm h1 h2 h3 h4, ?_⟩
  intro p hp i hi hne
  obtain ⟨c, c2, hu, hrl, hcl⟩ := mergeConfig_entries hm hp
  obtain ⟨dc, l, e0, hc, hlook, hfg, hcase⟩ := upsertCategory_ok_inv hu
  have hgd : getStr d p.1 = .ok (.list l) := by
    rw [← hcl, hc]
    exact getStr_dict_eq dc p.1 hlook
  have hed : entriesOf d p.1 = l := entriesOf_eq hgd
  have hfn0 : nameOf (fragEnt f p.1) = nameOf e0 := by rw [fragEnt_eq hfg]
  rcases hcase with ⟨fn, pay, i0, hfn, hpay, hi0, hb0, hat0, hdict0, hc2⟩ | ⟨-, hc2⟩
  · have her : entriesOf r p.1 =
        l.set i0 (withPayload (l.getD i0 .null) p.2 pay) := by
      apply entriesOf_eq
      rw [hrl, hc2]
      exact getStr_set_self _ _ _
    obtain ⟨n0, hn0, hq0⟩ := hat0
    have hii0 : i ≠ i0 := by
      intro hc0
      rw [hed, hc0, nameOf_eq_of hn0, hfn0, nameOf_eq_of hfn] at hne
      rw [hq0] at hne
      cases hne
    rw [her, hed, getD_set_other _ _ hii0]
  · have her : entriesOf r p.1 = l ++ [e0] := by
      apply entriesOf_eq
      rw [hrl, hc2]
      exact getStr_set_self _ _ _
    rw [her, hed, getD_append_left _ _ (hed ▸ hi)]

theorem claim_C8_witness :
    (update_kubeconfig (some exDoc) exFrag).2 = .ok exMerged ∧
      ((update_kubeconfig (some exDoc) exFrag).1 = [exMerged] ∧
       (∀ k : String, k ≠ "contexts" → k ≠ "clusters" → k ≠ "users" →
         k ≠ "current-context" → getStr exMerged k = getStr exDoc k) ∧
       (∀ p : String × String, p ∈ cats →
         ∀ i, i < (entriesOf exDoc p.1).length →
         pyEq (nameOf ((entriesOf exDoc p.1).getD i .null))
           (nameOf (fragEnt exFrag p.1)) = false →
         (entriesOf exMerged p.1).getD i .null =
           (entriesOf exDoc p.1).getD i .null)) :=
  ⟨rfl, claim_C8_schema_preservation exDoc exFrag exMerged rfl⟩

/-- C10: when a successful run replaces an existing entry (the first entry
whose name equals the fragment entry's name), only that entry's payload key
is reassigned: the entry object is kept and mutated in place, so its
`"name"` and every other key it carried are preserved; the fragment's
entry object itself is used only in the append case, never in the replace
case. -/
theorem claim_C10_replace_only_payload (d f r : Value)
    (h : (update_kubeconfig (some d) f).2 = .ok r)
    (p : String × String) (hp : p ∈ cats) (i : Nat)
    (hi : i < (entriesOf d p.1).length)
    (hat : pyEq (nameOf ((entriesOf d p.1).getD i .null))
      (nameOf (fragEnt f p.1)) = true)
    (hbefore : ∀ j, j < i →
      pyEq (nameOf ((entriesOf d p.1).getD j .null))
        (nameOf (fragEnt f p.1)) = false) :
    (entriesOf r p.1).getD i .null =
      withPayload ((entriesOf d p.1).getD i .null) p.2
        (payloadOf (fragEnt f p.1) p.2) ∧
    ∀ k : String, k ≠ p.2 →
      getStr ((entriesOf r p.1).getD i .null) k =
        getStr ((entriesOf d p.1).getD i .null) k := by
  have hm := update_some_ok h
  obtain ⟨c, c2, hu, hrl, hcl⟩ := mergeConfig_entries hm hp
  obtain ⟨dc, l, e0, hc, hlook, hfg, hcase⟩ := upsertCategory_ok_inv hu
  have hgd : getStr d p.1 = .ok (.list l) := by
    rw [← hcl, hc]
    exact getStr_dict_eq dc p.1 hlook
  have hed : entriesOf d p.1 = l := entriesOf_eq hgd
  have hfn0 : nameOf (fragEnt f p.1) = nameOf e0 := by rw [fragEnt_eq hfg]
  rcases hcase with ⟨fn, pay, i0, hfn, hpay, hi0, hb0, hat0, hdict0, hc2⟩ | ⟨hnone, hc2⟩
  · -- replace case: the hit index must be i
    obtain ⟨n0, hn0, hq0⟩ := hat0
    have hieq : i = i0 := by
      rcases Nat.lt_trichotomy i i0 with hlt | heq | hgt
      · obtain ⟨nj, hnj, hqj⟩ := hb0 i hlt
        rw [hed, nameOf_eq_of hnj, hfn0, nameOf_eq_of hfn] at hat
        rw [hqj] at hat
        cases hat
      · exact heq
      · have hfalse := hbefore i0 hgt
        rw [hed, nameOf_eq_of hn0, hfn0, nameOf_eq_of hfn] at hfalse
        rw [hq0] at hfalse
        cases hfalse
    subst hieq
    have her : entriesOf r p.1 =
        l.set i (withPayload (l.getD i .null) p.2 pay) := by
      apply entriesOf_eq
      rw [hrl, hc2]
      exact getStr_set_self _ _ _
    have hpayeq : payloadOf (fragEnt f p.1) p.2 = pay := by
      rw [fragEnt_eq hfg]
      exact payloadOf_eq_of hpay
    obtain ⟨edi, hedi⟩ := hdict0
    constructor
    · rw [her, hed, hpayeq, getD_set_self _ _ (hed ▸ hi)]
    · intro k hk
      rw [her, hed, getD_set_self _ _ (hed ▸ hi),
        getStr_withPayload_other pay hk hedi]
  · -- append case is impossible: there is a hit at index i
    exfalso
    rcases hnone with hnil | ⟨fn, hfn, hall⟩
    · rw [hed, hnil] at hi
      cases hi
    · obtain ⟨nj, hnj, hqj⟩ := hall _ (getD_mem Value.null (hed ▸ hi))
      rw [hed, nameOf_eq_of hnj, hfn0, nameOf_eq_of hfn] at hat
      rw [hqj] at hat
      cases hat

theorem claim_C10_witness :
    (update_kubeconfig (some dupDoc) dupFrag).2 = .ok dupMerged ∧
      ("contexts", "context") ∈ cats ∧
      0 < (entriesOf dupDoc "contexts").length ∧
      pyEq (nameOf ((entriesOf dupDoc "contexts").getD 0 .null))
        (nameOf (fragEnt dupFrag "contexts")) = true ∧
      ((entriesOf dupMerged "contexts").getD 0 .null =
        withPayload ((entriesOf dupDoc "contexts").getD 0 .null) "context"
          (payloadOf (fragEnt dupFrag "contexts") "context") ∧
       ∀ k : String, k ≠ "context" →
         getStr ((entriesOf dupMerged "contexts").getD 0 .null) k =
           getStr ((entriesOf dupDoc "contexts").getD 0 .null) k) :=
  ⟨rfl, by simp [cats], by decide, rfl,
    claim_C10_replace_only_payload dupDoc dupFrag dupMerged rfl
      ("contexts", "context") (by simp [cats]) 0 (by decide) rfl
      (fun j hj => absurd hj (Nat.not_lt_zero j))⟩

/-- C1: for a well-formed document (§3 data model: three lists of named
entries, names unique per list) and well-formed fragment,
`update_kubeconfig` succeeds with a single write, and for each of the three
lists: if an entry whose name equals the fragment entry's name sits at
index `i`, the result is the same list with exactly the entry at index `i`
replaced in place by that entry with its payload sub-object set to the
fragment's payload — every other index unchanged in content and order;
if no entry bears that name, the result is the same list with the
fragment's entry appended as the new last element. -/
theorem claim_C1_position_preservation_and_append (d f : Value)
    (hd : wfDoc d = true) (hf : wfFrag f = true) :
    ∃ r, update_kubeconfig (some d) f = ([r], .ok r) ∧
      ∀ p : String × String, p ∈ cats →
        ((∀ i, i < (entriesOf d p.1).length →
            pyEq (nameOf ((entriesOf d p.1).getD i .null))
              (nameOf (fragEnt f p.1)) = true →
            entriesOf r p.1 = (entriesOf d p.1).set i
              (withPayload ((entriesOf d p.1).getD i .null) p.2
                (payloadOf (fragEnt f p.1) p.2))) ∧
         ((∀ e ∈ entriesOf d p.1,
             pyEq (nameOf e) (nameOf (fragEnt f p.1)) = false) →
           entriesOf r p.1 = entriesOf d p.1 ++ [fragEnt f p.1])) := by
  obtain ⟨r, hm, hwf, hcc, hent⟩ := mergeConfig_wf hd hf
  refine ⟨r, by simp [update_kubeconfig, hm], ?_⟩
  intro p hp
  have hlist := hent p hp
  obtain ⟨l, hg, hn, hdist⟩ := wfDoc_iff.mp hd p hp
  have hed : entriesOf d p.1 = l := entriesOf_eq hg
  constructor
  · intro i hi hat
    rw [hed] at hi hat
    have hidx : findNameIdx (nameOf (fragEnt f p.1)) (entriesOf d p.1) = some i := by
      rw [hed]
      apply findNameIdx_some_of hi hat
      intro j hj
      exact distinct_unique_hit hdist hi hat j (Nat.lt_trans hj hi) (Nat.ne_of_lt hj)
    rw [hlist, upsertList, hidx, hed]
  · intro hall
    have hidx : findNameIdx (nameOf (fragEnt f p.1)) (entriesOf d p.1) = none :=
      findNameIdx_none_of hall
    rw [hlist, upsertList, hidx]

theorem claim_C1_witness :
    wfDoc exDoc = true ∧ wfFrag exFrag = true ∧
      ∃ r, update_kubeconfig (some exDoc) exFrag = ([r], .ok r) ∧
        ∀ p : String × String, p ∈ cats →
          ((∀ i, i < (entriesOf exDoc p.1).length →
              pyEq (nameOf ((entriesOf exDoc p.1).getD i .null))
                (nameOf (fragEnt exFrag p.1)) = true →
              entriesOf r p.1 = (entriesOf exDoc p.1).set i
                (withPayload ((entriesOf exDoc p.1).getD i .null) p.2
                  (payloadOf (fragEnt exFrag p.1) p.2))) ∧
           ((∀ e ∈ entriesOf exDoc p.1,
               pyEq (nameOf e) (nameOf (fragEnt exFrag p.1)) = false) →
             entriesOf r p.1 = entriesOf exDoc p.1 ++ [fragEnt exFrag p.1])) :=
  ⟨rfl, rfl, claim_C1_position_preservation_and_append exDoc exFrag rfl rfl⟩

theorem upsertCategory_congr {lk pk : String} {f f2 : Value}
    (h : fragGet f lk = fragGet f2 lk) :
    ∀ c : Value, upsertCategory c lk pk f = upsertCategory c lk pk f2 := by
  intro c
  simp only [upsertCategory, h]

theorem mergeConfig_congr {f f2 : Value}
    (h1 : fragGet f "contexts" = fragGet f2 "contexts")
    (h2 : fragGet f "clusters" = fragGet f2 "clusters")
    (h3 : fragGet f "users" = fragGet f2 "users")
    (hcc : getStr f "current-context" = getStr f2 "current-context") :
    ∀ d : Value, mergeConfig d f = mergeConfig d f2 := by
  intro d
  simp only [mergeConfig, upsertCategory_congr h1, upsertCategory_congr h2,
    upsertCategory_congr h3, hcc]

theorem lookups_truncmap (d : List (String × Value)) (k : String) :
    lookups (d.map (fun p =>
      (p.1, if p.1 = "contexts" ∨ p.1 = "clusters" ∨ p.1 = "users"
            then truncateList p.2 else p.2))) k =
    (lookups d k).map (fun v =>
      if k = "contexts" ∨ k = "clusters" ∨ k = "users"
      then truncateList v else v) := by
  induction d with
  | nil => rfl
  | cons p rest ih =>
    by_cases hp : p.1 = k
    · simp [lookups, hp]
    · simp [lookups, hp, ih]

theorem getIdx_truncateList (v : Value) : getIdx (truncateList v) 0 = getIdx v 0 := by
  cases v with
  | list l => cases l <;> rfl
  | null => rfl
  | bool b => rfl
  | int n => rfl
  | str s => rfl
  | dict d => rfl

theorem fragGet_truncate (f : Value) (lk : String) :
    fragGet (truncate f) lk = fragGet f lk := by
  cases f with
  | dict d =>
    simp only [truncate, fragGet, getStr, lookups_truncmap]
    cases hl : lookups d lk with
    | none => rfl
    | some v =>
      simp only [Option.map_some]
      by_cases hc : lk = "contexts" ∨ lk = "clusters" ∨ lk = "users"
      · simp only [if_pos hc]
        exact getIdx_truncateList v
      · simp only [if_neg hc, Option.map_id_fun, id]
        rfl
  | null => rfl
  | bool b => rfl
  | int n => rfl
  | str s => rfl
  | list l => rfl

theorem getStr_truncate_cc (f : Value) :
    getStr (truncate f) "current-context" = getStr f "current-context" := by
  cases f with
  | dict d =>
    simp only [truncate, getStr, lookups_truncmap]
    cases hl : lookups d "current-context" with
    | none => rfl
    | some v => simp
  | null => rfl
  | bool b => rfl
  | int n => rfl
  | str s => rfl
  | list l => rfl

/-- C9: only the first element of each of the fragment's three lists is
consumed: merging any fragment gives byte-for-byte the same run (same
writes, same outcome) as merging the fragment truncated to the first entry
of each list; entries beyond index 0 never reach the document. -/
theorem claim_C9_only_first_entry_used (file : Option Value) (f : Value) :
    update_kubeconfig file f = update_kubeconfig file (truncate f) ∧
      ∀ p : String × String, p ∈ cats →
        entriesOf (truncate f) p.1 = (entriesOf f p.1).take 1 := by
  constructor
  · have hm := mergeConfig_congr (fragGet_truncate f "contexts").symm
      (fragGet_truncate f "clusters").symm (fragGet_truncate f "users").symm
      (getStr_truncate_cc f).symm
    cases file with
    | some d => simp only [update_kubeconfig, hm d]
    | none => simp only [update_kubeconfig, hm skeleton]
  · intro p hp
    have hpkey : p.1 = "contexts" ∨ p.1 = "clusters" ∨ p.1 = "users" := by
      obtain ⟨lk, pk⟩ := p
      rcases cats_cases hp with ⟨e1, -⟩ | ⟨e1, -⟩ | ⟨e1, -⟩ <;> subst e1 <;> simp
    cases f with
    | dict d =>
      simp only [truncate, entriesOf, getStr, lookups_truncmap]
      cases hl : lookups d p.1 with
      | none => rfl
      | some v =>
        simp only [Option.map_some, if_pos hpkey]
        cases v with
        | list l => cases l <;> rfl
        | null => rfl
        | bool b => rfl
        | int n => rfl
        | str s => rfl
        | dict d2 => rfl
    | null => rfl
    | bool b => rfl
    | int n => rfl
    | str s => rfl
    | list l => rfl

theorem countNamed_singleton {e0 n : Value} (h : pyEq (nameOf e0) n = true) :
    countNamed [e0] n = 1 := by
  simp [countNamed, h]

/-- One well-formed merge with all three fragment entries named `n` leaves
exactly one entry named `n` in each list, holding the fragment's payload. -/
theorem mergeStep_named {d f n : Value}
    (hd : wfDoc d = true) (hf : wfFrag f = true)
    (hn : ∀ p : String × String, p ∈ cats →
      pyEq (nameOf (fragEnt f p.1)) n = true) :
    ∃ r, mergeConfig d f = .ok r ∧ wfDoc r = true ∧
      ∀ p : String × String, p ∈ cats →
        countNamed (entriesOf r p.1) n = 1 ∧
        payloadOf (findNamed (entriesOf r p.1) n) p.2 =
          payloadOf (fragEnt f p.1) p.2 := by
  obtain ⟨r, hm, hwf, hcc, hent⟩ := mergeConfig_wf hd hf
  refine ⟨r, hm, hwf, ?_⟩
  intro p hp
  have hlist := hent p hp
  obtain ⟨l, hg, hnames, hdist⟩ := wfDoc_iff.mp hd p hp
  have hed : entriesOf d p.1 = l := entriesOf_eq hg
  have hfn : pyEq (nameOf (fragEnt f p.1)) n = true := hn p hp
  have hpk : p.2 ≠ "name" := by
    obtain ⟨lk, pk⟩ := p
    rcases cats_cases hp with ⟨-, e2⟩ | ⟨-, e2⟩ | ⟨-, e2⟩ <;> subst e2
    · exact (by decide : ("context" : String) ≠ "name")
    · exact (by decide : ("cluster" : String) ≠ "name")
    · exact (by decide : ("user" : String) ≠ "name")
  rw [hed] at hlist
  cases hidx : findNameIdx (nameOf (fragEnt f p.1)) l with
  | some i =>
    obtain ⟨hi, hat, hbefore⟩ := findNameIdx_some_inv hidx
    rw [upsertList, hidx] at hlist
    obtain ⟨ni, hni⟩ := hasNameB_iff.mp (hnames _ (getD_mem Value.null hi))
    obtain ⟨edi, hedi, -⟩ := getStr_ok_dict hni
    have hxname : nameOf (withPayload (l.getD i .null) p.2
        (payloadOf (fragEnt f p.1) p.2)) = nameOf (l.getD i .null) :=
      nameOf_withPayload _ hpk hedi
    have hatn : pyEq (nameOf (l.getD i .null)) n = true := pyEq_trans hat hfn
    constructor
    · rw [hlist, countNamed_set n hi hxname]
      have hle := countNamed_le_one_of_distinct n hdist
      have hpos := countNamed_pos_of_hit hi hatn
      omega
    · have hbn : ∀ j, j < i → pyEq (nameOf (l.getD j .null)) n = false := by
        intro j hj
        cases hq : pyEq (nameOf (l.getD j .null)) n with
        | false => rfl
        | true =>
          exfalso
          have hnf : pyEq n (nameOf (fragEnt f p.1)) = true := by
            rw [pyEq_symm]; exact hfn
          have := hbefore j hj
          rw [pyEq_trans hq hnf] at this
          cases this
      have hfind : findNamed (l.set i (withPayload (l.getD i .null) p.2
          (payloadOf (fragEnt f p.1) p.2))) n =
          withPayload (l.getD i .null) p.2 (payloadOf (fragEnt f p.1) p.2) :=
        findNamed_set_hit hi hbn (by rw [hxname]; exact hatn)
      rw [hlist, hfind, payloadOf_withPayload _ hedi]
  | none =>
    rw [upsertList, hidx] at hlist
    have hall := findNameIdx_none_inv hidx
    have halln : ∀ e ∈ l, pyEq (nameOf e) n = false := by
      intro e he
      cases hq : pyEq (nameOf e) n with
      | false => rfl
      | true =>
        exfalso
        have hnf : pyEq n (nameOf (fragEnt f p.1)) = true := by
          rw [pyEq_symm]; exact hfn
        have := hall e he
        rw [pyEq_trans hq hnf] at this
        cases this
    constructor
    · rw [hlist, countNamed_append, countNamed_eq_zero halln,
        countNamed_singleton hfn]
    · rw [hlist, findNamed_append_hit halln hfn]

/-- C2 as stated is false on the code: the upsert replaces only the first
name hit and then stops, so a pre-existing duplicate of the fragment's name
survives the merge.  Against `dupDoc`, whose `contexts` list holds two
entries named `"x"`, merging the well-formed fragment `dupFrag` (all
entries named `"x"`) succeeds and leaves two entries named `"x"` — not
exactly one: uniqueness is preserved, not enforced on arbitrary input. -/
theorem claim_C2_counterexample :
    wfFrag dupFrag = true ∧
    (update_kubeconfig (some dupDoc) dupFrag).2 = .ok dupMerged ∧
    pyEq (nameOf (fragEnt dupFrag "contexts")) (.str "x") = true ∧
    countNamed (entriesOf dupMerged "contexts") (.str "x") = 2 ∧
    ¬ countNamed (entriesOf dupMerged "contexts") (.str "x") = 1 :=
  ⟨rfl, rfl, rfl, rfl, by decide⟩

/-- C2 (amended): for every sequence of merges whose fragments all carry
the same entry name, starting from a well-formed document — names unique
within each list, as the §3 data model guarantees and as every document the
algorithm itself produces satisfies — every merge succeeds and each of the
three result lists contains exactly one entry with that name, whose payload
equals the most recently merged fragment's payload; the result is again
well-formed, so uniqueness is maintained by the upsert algorithm itself
over the whole sequence (pre-existing duplicates, however, are not removed,
per the counterexample). -/
theorem claim_C2_amended_name_uniqueness (d n : Value) (fs : List Value)
    (hd : wfDoc d = true) (hne : fs ≠ [])
    (hwf : ∀ f ∈ fs, wfFrag f = true)
    (hn : ∀ f ∈ fs, ∀ p : String × String, p ∈ cats →
      pyEq (nameOf (fragEnt f p.1)) n = true) :
    ∃ r, mergeSeq d fs = .ok r ∧ wfDoc r = true ∧
      ∀ p : String × String, p ∈ cats →
        countNamed (entriesOf r p.1) n = 1 ∧
        payloadOf (findNamed (entriesOf r p.1) n) p.2 =
          payloadOf (fragEnt (fs.getLast hne) p.1) p.2 := by
  induction fs generalizing d with
  | nil => exact absurd rfl hne
  | cons f rest ih =>
    obtain ⟨r1, hm1, hwf1, hprops1⟩ := mergeStep_named hd
      (hwf f (List.mem_cons_self _ _)) (hn f (List.mem_cons_self _ _))
    cases rest with
    | nil =>
      refine ⟨r1, by simp [mergeSeq, hm1], hwf1, ?_⟩
      intro p hp
      exact hprops1 p hp
    | cons g rest2 =>
      have hne2 : g :: rest2 ≠ [] := List.cons_ne_nil g rest2
      obtain ⟨r, hmr, hwfr, hpropsr⟩ := ih r1 hwf1 hne2
        (fun x hx => hwf x (List.mem_cons_of_mem _ hx))
        (fun x hx => hn x (List.mem_cons_of_mem _ hx))
      refine ⟨r, ?_, hwfr, ?_⟩
      · simp only [mergeSeq, hm1]
        exact hmr
      · intro p hp
        have hlast : (f :: g :: rest2).getLast hne = (g :: rest2).getLast hne2 :=
          List.getLast_cons hne2
        rw [hlast]
        exact hpropsr p hp

theorem claim_C2_witness :
    wfDoc exDoc = true ∧
    (∀ f ∈ ([dupFrag, dupFrag2] : List Value), wfFrag f = true) ∧
    (∀ f ∈ ([dupFrag, dupFrag2] : List Value), ∀ p : String × String, p ∈ cats →
      pyEq (nameOf (fragEnt f p.1)) (.str "x") = true) ∧
    (∃ r, mergeSeq exDoc [dupFrag, dupFrag2] = .ok r ∧ wfDoc r = true ∧
      ∀ p : String × String, p ∈ cats →
        countNamed (entriesOf r p.1) (.str "x") = 1 ∧
        payloadOf (findNamed (entriesOf r p.1) (.str "x")) p.2 =
          payloadOf (fragEnt (([dupFrag, dupFrag2] : List Value).getLast
            (List.cons_ne_nil dupFrag [dupFrag2])) p.1) p.2) :=
  ⟨rfl, by decide, by decide,
    claim_C2_amended_name_uniqueness exDoc (.str "x") [dupFrag, dupFrag2] rfl
      (List.cons_ne_nil dupFrag [dupFrag2]) (by decide) (by decide)⟩

theorem upsert_shape {c f c2 : Value} {lk pk : String}
    (h : upsertCategory c lk pk f = .ok c2) :
    ∃ dcIn L, c = .dict dcIn ∧ c2 = .dict (dictSet dcIn lk (.list L)) := by
  obtain ⟨dc, l, e0, hc, hlook, hfg, hcase⟩ := upsertCategory_ok_inv h
  rcases hcase with ⟨fn, pay, i, -, -, -, -, -, -, hc2⟩ | ⟨-, hc2⟩
  · exact ⟨dc, _, hc, hc2⟩
  · exact ⟨dc, _, hc, hc2⟩

/-- Re-running one category's upsert on a document whose entry list is
already the outcome of that same upsert (with the same well-formed fragment
entry) is the identity. -/
theorem upsert_rerun {c c2 f : Value} {lk pk : String} {ed : List (String × Value)}
    (hpk : pk ≠ "name")
    (hu : upsertCategory c lk pk f = .ok c2)
    (hfg : fragGet f lk = .ok (.dict ed))
    (hnodup : nodupKeys ed = true)
    (hname : ∃ n, getStr (.dict ed) "name" = .ok n)
    (hpay : ∃ pay, lookups ed pk = some pay)
    {rd : List (String × Value)} {L : List Value}
    (hrl : lookups rd lk = some (.list L))
    (hallocc : AllOcc rd lk (.list L))
    (hL : getStr c2 lk = .ok (.list L)) :
    upsertCategory (.dict rd) lk pk f = .ok (.dict rd) := by
  obtain ⟨dc, l, e0, hc, hlook, hfg2, hcase⟩ := upsertCategory_ok_inv hu
  rw [hfg] at hfg2
  cases hfg2
  have hg : getStr (.dict rd) lk = .ok (.list L) := getStr_dict_eq rd lk hrl
  have hrf : replaceFirst (fragGet f lk) pk L = .ok (some L) := by
    rcases hcase with ⟨fn, pay, i, hfn, hpayE, hi, hb, hat, hdict, hc2s⟩ | ⟨hnone, hc2s⟩
    · -- first run replaced in place at index i; the rescan hits i again
      have hgl : getStr c2 lk =
          .ok (.list (l.set i (withPayload (l.getD i .null) pk pay))) := by
        rw [hc2s]
        exact getStr_set_self _ _ _
      rw [hL] at hgl
      have hLeq : L = l.set i (withPayload (l.getD i .null) pk pay) := by
        cases hgl
        rfl
      obtain ⟨edi, hedi⟩ := hdict
      obtain ⟨ni, hni, hqi⟩ := hat
      have hiL : i < L.length := by
        rw [hLeq, List.length_set]
        exact hi
      have hgetDi : L.getD i .null = withPayload (l.getD i .null) pk pay := by
        rw [hLeq]
        exact getD_set_self _ _ hi
      have hres := replaceFirst_hit pk hfg hfn hpayE hiL
        (fun j hj => by
          rw [hLeq, getD_set_other _ _ (Nat.ne_of_lt hj)]
          exact hb j hj)
        (⟨ni, by
          rw [hgetDi, getStr_withPayload_other pay (fun hc2 => hpk hc2.symm) hedi]
          exact hni, hqi⟩)
      rw [hres]
      congr 2
      rw [hgetDi, withPayload_withPayload, hLeq, List.set_set]
    · -- first run appended; the rescan hits the appended entry
      have hgl : getStr c2 lk = .ok (.list (l ++ [.dict ed])) := by
        rw [hc2s]
        exact getStr_set_self _ _ _
      rw [hL] at hgl
      have hLeq : L = l ++ [.dict ed] := by
        cases hgl
        rfl
      obtain ⟨fn2, hfn2⟩ := hname
      obtain ⟨pay2, hpay2⟩ := hpay
      have hpayE2 : getStr (.dict ed) pk = .ok pay2 := getStr_dict_eq ed pk hpay2
      have hiL : l.length < L.length := by
        rw [hLeq, List.length_append]
        simp
      have hgetDlen : L.getD l.length .null = .dict ed := by
        rw [hLeq]
        exact getD_append_last _ _ _
      have hres := replaceFirst_hit pk hfg hfn2 hpayE2 hiL
        (fun j hj => by
          rw [hLeq, getD_append_left _ _ hj]
          rcases hnone with hnil | ⟨fn3, hfn3, hall⟩
          · rw [hnil] at hj
            cases hj
          · obtain ⟨nj, hnj, hqj⟩ := hall _ (getD_mem Value.null hj)
            rw [hfn3] at hfn2
            cases hfn2
            exact ⟨nj, hnj, hqj⟩)
        (⟨fn2, by rw [hgetDlen]; exact hfn2, pyEq_refl fn2⟩)
      rw [hres]
      congr 2
      rw [hgetDlen, withPayload_eq_self hnodup hpay2, hLeq, set_append_last]
  simp only [upsertCategory, hg, iterElems, hrf]
  rw [show setStrItem (Value.dict rd) lk (.list L) =
    .ok (.dict (dictSet rd lk (.list L))) from rfl,
    dictSet_eq_of_allOcc (lookups_some_hasKey hrl) hallocc]

/-- Re-merging the same well-formed fragment into the document the first
merge produced returns that document unchanged. -/
theorem mergeConfig_rerun {d f r : Value} (hf : wfFrag f = true)
    (hm : mergeConfig d f = .ok r) : mergeConfig r f = .ok r := by
  obtain ⟨hfspec, cc0, hcc0⟩ := wfFrag_spec hf
  obtain ⟨ed1, hf1, hnd1, hnm1, hp1⟩ := hfspec ("contexts", "context") (by simp [cats])
  obtain ⟨ed2, hf2, hnd2, hnm2, hp2⟩ := hfspec ("clusters", "cluster") (by simp [cats])
  obtain ⟨ed3, hf3, hnd3, hnm3, hp3⟩ := hfspec ("users", "user") (by simp [cats])
  obtain ⟨c1, c2, c3, ccv, c3d, hu1, hu2, hu3, hccv, hc3, hr⟩ := mergeConfig_ok_inv hm
  obtain ⟨dd0, L1, hd0, hc1⟩ := upsert_shape hu1
  obtain ⟨dd1, L2, hc1b, hc2⟩ := upsert_shape hu2
  rw [hc1] at hc1b
  cases hc1b
  obtain ⟨dd2, L3, hc2b, hc3b⟩ := upsert_shape hu3
  rw [hc2] at hc2b
  cases hc2b
  rw [hc3b] at hc3
  cases hc3
  -- r is the dict rd
  set dd1 := dictSet dd0 "contexts" (Value.list L1) with hdd1
  set dd2 := dictSet dd1 "clusters" (Value.list L2) with hdd2
  set dd3 := dictSet dd2 "users" (Value.list L3) with hdd3
  set rd := dictSet dd3 "current-context" ccv with hrd
  have hrdict : r = .dict rd := hr
  -- per-category list of r, with all occurrences normalized
  have hrl1 : lookups rd "contexts" = some (.list L1) := by
    rw [hrd, lookups_dictSet_other _ (by decide), hdd3,
      lookups_dictSet_other _ (by decide), hdd2,
      lookups_dictSet_other _ (by decide), hdd1, lookups_dictSet_self]
  have hrl2 : lookups rd "clusters" = some (.list L2) := by
    rw [hrd, lookups_dictSet_other _ (by decide), hdd3,
      lookups_dictSet_other _ (by decide), hdd2, lookups_dictSet_self]
  have hrl3 : lookups rd "users" = some (.list L3) := by
    rw [hrd, lookups_dictSet_other _ (by decide), hdd3, lookups_dictSet_self]
  have hao1 : AllOcc rd "contexts" (.list L1) := by
    rw [hrd]
    apply allOcc_dictSet_other _ (by decide)
    rw [hdd3]
    apply allOcc_dictSet_other _ (by decide)
    rw [hdd2]
    apply allOcc_dictSet_other _ (by decide)
    rw [hdd1]
    exact allOcc_dictSet_self _ _ _
  have hao2 : AllOcc rd "clusters" (.list L2) := by
    rw [hrd]
    apply allOcc_dictSet_other _ (by decide)
    rw [hdd3]
    apply allOcc_dictSet_other _ (by decide)
    rw [hdd2]
    exact allOcc_dictSet_self _ _ _
  have hao3 : AllOcc rd "users" (.list L3) := by
    rw [hrd]
    apply allOcc_dictSet_other _ (by decide)
    rw [hdd3]
    exact allOcc_dictSet_self _ _ _
  have haocc : AllOcc rd "current-context" ccv := by
    rw [hrd]
    exact allOcc_dictSet_self _ _ _
  have hL1 : getStr c1 "contexts" = .ok (.list L1) := by
    rw [hc1, hdd1]
    exact getStr_set_self _ _ _
  have hL2 : getStr c2 "clusters" = .ok (.list L2) := by
    rw [hc2, hdd2]
    exact getStr_set_self _ _ _
  have hL3 : getStr c3 "users" = .ok (.list L3) := by
    rw [hc3b, hdd3]
    exact getStr_set_self _ _ _
  have hru1 := upsert_rerun (by decide) hu1 hf1 hnd1 hnm1 hp1 hrl1 hao1 hL1
  have hru2 := upsert_rerun (by decide) hu2 hf2 hnd2 hnm2 hp2 hrl2 hao2 hL2
  have hru3 := upsert_rerun (by decide) hu3 hf3 hnd3 hnm3 hp3 hrl3 hao3 hL3
  have hkey : hasKey rd "current-context" = true := by
    rw [hrd]
    exact hasKey_dictSet_self _ _ _
  rw [hrdict]
  simp only [mergeConfig, hru1, hru2, hru3, hccv]
  rw [show setStrItem (Value.dict rd) "current-context" ccv =
    .ok (.dict (dictSet rd "current-context" ccv)) from rfl,
    dictSet_eq_of_allOcc hkey haocc]

/-- C4 fails as universally stated: a fragment whose context entry lacks
its payload key merges successfully into a document with an empty contexts
list (the append path never reads the payload), but merging it a second
time raises `KeyError` at the name hit — the second merge does not equal
the first, not even up to content equality. -/
theorem claim_C4_counterexample :
    mergeConfig emptyDoc noPayloadFrag = .ok noPayloadMerged ∧
    mergeConfig noPayloadMerged noPayloadFrag = .error .keyError ∧
    mergeConfig noPayloadMerged noPayloadFrag ≠ mergeConfig emptyDoc noPayloadFrag := by
  refine ⟨rfl, rfl, ?_⟩
  intro hc
  rw [show mergeConfig noPayloadMerged noPayloadFrag = .error .keyError from rfl,
    show mergeConfig emptyDoc noPayloadFrag = .ok noPayloadMerged from rfl] at hc
  cases hc

/-- C4 (amended): for every starting document and every well-formed
fragment (each of the three entries present as a duplicate-free mapping
carrying its name and payload keys, and `current-context` present — the
shape §3/§4 demand of fragments), if the first `update_kubeconfig` run
succeeds and persists `r`, a second run on the persisted file succeeds and
writes the identical document again: merge(merge(d,f),f) = merge(d,f). -/
theorem claim_C4_amended_idempotence (d f r : Value) (hf : wfFrag f = true)
    (h : (update_kubeconfig (some d) f).2 = .ok r) :
    update_kubeconfig (some r) f = ([r], .ok r) := by
  have hm := update_some_ok h
  have hm2 := mergeConfig_rerun hf hm
  simp [update_kubeconfig, hm2]

theorem claim_C4_witness :
    wfFrag exFrag = true ∧
      (update_kubeconfig (some exDoc) exFrag).2 = .ok exMerged ∧
      update_kubeconfig (some exMerged) exFrag = ([exMerged], .ok exMerged) :=
  ⟨rfl, rfl, claim_C4_amended_idempotence exDoc exFrag exMerged rfl rfl⟩

end Skctl
